import Mathlib

/-!
Verification of the two pure cores of the consfyi/editor repository
(`src/unnamed/part_003`): the next-occurrence date projector
(`getWeekOfMonth`, `getWeekdayInNthWeek`, `addYearSameWeekday`) and the
annotated JSON serializer (`myStringifyWithErrors`).

The date projector is embedded over a proleptic-Gregorian calendar model
with dates as (year, month, day) triples, month indices 0..11 and weekday
indices 0 = Sunday .. 6 = Saturday, exactly the conventions of the
JavaScript `Date` / date-fns functions the source uses (`getYear`,
`getMonth`, `getDate`, `getDay`, `startOfMonth`, `addDays`).  Years are
restricted to 1.. (the projector only ever moves a valid date to nearby
days of year + 1, so the restriction is invisible to every claim).

The serializer is embedded over an inductive JSON value type in which a
mapping entry's value is an `Option` (`none` is JavaScript `undefined`,
i.e. an explicitly absent entry); numbers are modelled as integers (the
claims under check are about annotation placement, structure and
round-tripping, not float formatting).
-/

namespace Consfyi

/-! ## Calendar model -/

/-- Gregorian leap-year rule, as in the JavaScript `Date` object. -/
def isLeapYear (y : Nat) : Bool :=
  y % 4 == 0 && (y % 100 != 0 || y % 400 == 0)

/-- Number of days of month `m` (0 = January .. 11 = December) of year `y`. -/
def daysInMonth (y m : Nat) : Nat :=
  if m = 1 then (if isLeapYear y then 29 else 28)
  else if m = 3 ∨ m = 5 ∨ m = 8 ∨ m = 10 then 30
  else 31

/-- A calendar date: year, month index 0..11, day of month 1... -/
structure Date where
  year : Nat
  month : Nat
  day : Nat
deriving DecidableEq, Repr

/-- Validity of a date: month in range and day within the month's length
(years from 1 on, see the module comment). -/
def Date.Valid (dt : Date) : Prop :=
  1 ≤ dt.year ∧ dt.month ≤ 11 ∧ 1 ≤ dt.day ∧ dt.day ≤ daysInMonth dt.year dt.month

instance (dt : Date) : Decidable dt.Valid := by
  unfold Date.Valid; infer_instance

/-- Days contributed by the months of year `y` before month `m`. -/
def daysBeforeMonth (y : Nat) : Nat → Nat
  | 0 => 0
  | m + 1 => daysBeforeMonth y m + daysInMonth y m

/-- Number of leap years among 1..y-1. -/
def leapsBefore (y : Nat) : Nat :=
  (y - 1) / 4 - (y - 1) / 100 + (y - 1) / 400

/-- Days in the years 1..y-1. -/
def daysBeforeYear (y : Nat) : Nat :=
  365 * (y - 1) + leapsBefore y

/-- Day count of a date from 0001-01-01 (which is day 0). -/
def toDays (dt : Date) : Nat :=
  daysBeforeYear dt.year + daysBeforeMonth dt.year dt.month + (dt.day - 1)

/-- JavaScript `getDay`: day of week, 0 = Sunday .. 6 = Saturday.
0001-01-01 of the proleptic Gregorian calendar is a Monday, hence the +1. -/
def getDay (dt : Date) : Nat := (toDays dt + 1) % 7

/-- date-fns `getDate`: day of the month. -/
def getDate (dt : Date) : Nat := dt.day

/-- date-fns `getMonth`: month index 0..11. -/
def getMonth (dt : Date) : Nat := dt.month

/-- date-fns `getYear`. -/
def getYear (dt : Date) : Nat := dt.year

/-- date-fns `startOfMonth`. -/
def startOfMonth (dt : Date) : Date := ⟨dt.year, dt.month, 1⟩

/-- Calendar successor of a date. -/
def nextDay (dt : Date) : Date :=
  if dt.day < daysInMonth dt.year dt.month then ⟨dt.year, dt.month, dt.day + 1⟩
  else if dt.month < 11 then ⟨dt.year, dt.month + 1, 1⟩
  else ⟨dt.year + 1, 0, 1⟩

/-- Calendar predecessor of a date. -/
def prevDay (dt : Date) : Date :=
  if 1 < dt.day then ⟨dt.year, dt.month, dt.day - 1⟩
  else if 1 ≤ dt.month then ⟨dt.year, dt.month - 1, daysInMonth dt.year (dt.month - 1)⟩
  else ⟨dt.year - 1, 11, 31⟩

/-- date-fns `addDays`: move `n` calendar days (either direction). -/
def addDays (dt : Date) (n : Int) : Date :=
  if 0 ≤ n then nextDay^[n.toNat] dt else prevDay^[(-n).toNat] dt

/-! ## The date projector, transcribed from the source -/

/-- Source `getWeekOfMonth`:
`Math.ceil((getDate(date) + getDay(startOfMonth(date))) / 7)` (the numerator
is a positive integer, so the ceiling is `(x + 6) / 7` in integer division). -/
def getWeekOfMonth (dt : Date) : Nat :=
  (getDate dt + getDay (startOfMonth dt) + 6) / 7

/-- Source `getWeekdayInNthWeek`: from the first of the month, offset
`-firstDayOfWeek + weekday + (week - 1) * 7` days. -/
def getWeekdayInNthWeek (year month weekday week : Nat) : Date :=
  let firstOfMonth : Date := ⟨year, month, 1⟩
  let firstDayOfWeek := getDay firstOfMonth
  addDays firstOfMonth (-(firstDayOfWeek : Int) + weekday + ((week : Int) - 1) * 7)

/-- Source `addYearSameWeekday`. -/
def addYearSameWeekday (dt : Date) : Date :=
  getWeekdayInNthWeek (getYear dt + 1) (getMonth dt) (getDay dt) (getWeekOfMonth dt)

/-- Number of occurrences of weekday `wd` among days 1..dd of month `m`
of year `y` (the "ordinal position" of spec section 3 when `dd` is the day
of a date with weekday `wd`). -/
def countWeekdayUpTo (y m wd dd : Nat) : Nat :=
  ((List.range dd).map (· + 1)).countP (fun d => getDay ⟨y, m, d⟩ == wd)

/-- Number of occurrences of weekday `wd` in the whole month `m` of year `y`. -/
def countWeekday (y m wd : Nat) : Nat :=
  countWeekdayUpTo y m wd (daysInMonth y m)

/-! ## Basic calendar facts -/

theorem daysInMonth_ge (y m : Nat) : 28 ≤ daysInMonth y m := by
  unfold daysInMonth
  split
  · split <;> omega
  · split <;> omega

theorem daysInMonth_le (y m : Nat) : daysInMonth y m ≤ 31 := by
  unfold daysInMonth
  split
  · split <;> omega
  · split <;> omega

theorem getDay_lt (dt : Date) : getDay dt < 7 := by
  unfold getDay; omega

/-- Weekday of day `d` in terms of the weekday of the first of its month. -/
theorem getDay_eq_shift (y m d : Nat) :
    getDay ⟨y, m, d⟩ = (getDay ⟨y, m, 1⟩ + (d - 1)) % 7 := by
  unfold getDay toDays
  simp only
  omega

theorem nextDay_in_month (y m d : Nat) (h : d < daysInMonth y m) :
    nextDay ⟨y, m, d⟩ = ⟨y, m, d + 1⟩ := by
  unfold nextDay
  simp [h]

theorem nextDay_iter_in_month (j : Nat) : ∀ (y m d : Nat),
    d + j ≤ daysInMonth y m → nextDay^[j] ⟨y, m, d⟩ = ⟨y, m, d + j⟩ := by
  induction j with
  | zero => intro y m d _; simp
  | succ j ih =>
    intro y m d h
    rw [Function.iterate_succ_apply, nextDay_in_month y m d (by omega)]
    rw [ih y m (d + 1) (by omega)]
    simp [Nat.add_assoc, Nat.add_comm 1 j]

/-- Stepping from the last day of a month `m ≤ 10` lands on the first of
the next month. -/
theorem nextDay_month_end (y m : Nat) (hm : m ≤ 10) :
    nextDay ⟨y, m, daysInMonth y m⟩ = ⟨y, m + 1, 1⟩ := by
  unfold nextDay
  simp only [lt_irrefl, if_false]
  have : m < 11 := by omega
  simp [this]

/-- `addDays` from the first of a month, staying inside the month. -/
theorem addDays_first_in (y m : Nat) (n : Nat) (h : n + 1 ≤ daysInMonth y m) :
    addDays ⟨y, m, 1⟩ (n : Int) = ⟨y, m, n + 1⟩ := by
  unfold addDays
  rw [if_pos (by positivity), Int.toNat_ofNat]
  rw [nextDay_iter_in_month n y m 1 (by omega)]
  simp [Nat.add_comm]

/-- `addDays` from the first of a month `m ≤ 10`, spilling into month `m+1`. -/
theorem addDays_first_spill (y m : Nat) (hm : m ≤ 10) (n : Nat)
    (h1 : daysInMonth y m < n + 1)
    (h2 : n + 1 ≤ daysInMonth y m + daysInMonth y (m + 1)) :
    addDays ⟨y, m, 1⟩ (n : Int) = ⟨y, m + 1, n + 1 - daysInMonth y m⟩ := by
  obtain ⟨j, rfl⟩ : ∃ j, n = daysInMonth y m + j := ⟨n - daysInMonth y m, by omega⟩
  have hg := daysInMonth_ge y m
  unfold addDays
  rw [if_pos (by positivity), Int.toNat_ofNat]
  have hsplit : daysInMonth y m + j = j + (1 + (daysInMonth y m - 1)) := by omega
  rw [hsplit, Function.iterate_add_apply, Function.iterate_add_apply]
  rw [nextDay_iter_in_month (daysInMonth y m - 1) y m 1 (by omega)]
  have hend : (⟨y, m, 1 + (daysInMonth y m - 1)⟩ : Date) = ⟨y, m, daysInMonth y m⟩ := by
    have : 1 + (daysInMonth y m - 1) = daysInMonth y m := by omega
    rw [this]
  rw [hend, Function.iterate_one, nextDay_month_end y m hm]
  rw [nextDay_iter_in_month j y (m + 1) 1 (by omega)]
  congr 1
  omega

/-- `addDays` from the first of December, spilling into January of `y + 1`
(December always has 31 days). -/
theorem addDays_first_spill_dec (y : Nat) (n : Nat)
    (h1 : 31 < n + 1) (h2 : n + 1 ≤ 31 + 31) :
    addDays ⟨y, 11, 1⟩ (n : Int) = ⟨y + 1, 0, n + 1 - 31⟩ := by
  obtain ⟨j, rfl⟩ : ∃ j, n = 31 + j := ⟨n - 31, by omega⟩
  have hdim : daysInMonth y 11 = 31 := by unfold daysInMonth; norm_num
  unfold addDays
  rw [if_pos (by positivity), Int.toNat_ofNat]
  have hsplit : 31 + j = j + (1 + 30) := by omega
  rw [hsplit, Function.iterate_add_apply, Function.iterate_add_apply]
  rw [nextDay_iter_in_month 30 y 11 1 (by omega)]
  have hend : nextDay ⟨y, 11, 1 + 30⟩ = ⟨y + 1, 0, 1⟩ := by
    unfold nextDay
    rw [hdim]
    norm_num
  rw [Function.iterate_one, hend]
  rw [nextDay_iter_in_month j (y + 1) 0 1 (by
    have hja : daysInMonth (y + 1) 0 = 31 := by unfold daysInMonth; norm_num
    omega)]
  congr 1
  omega

theorem countWeekdayUpTo_succ (y m wd dd : Nat) :
    countWeekdayUpTo y m wd (dd + 1) =
      countWeekdayUpTo y m wd dd + (if getDay ⟨y, m, dd + 1⟩ = wd then 1 else 0) := by
  unfold countWeekdayUpTo
  rw [List.range_succ, List.map_append, List.countP_append]
  simp [List.countP_cons]

/-- Closed form for the weekday count: with `r` the day index of the first
occurrence of weekday `wd` in the month, days 1..dd contain `(dd+6-r)/7`
occurrences. -/
theorem countWeekdayUpTo_closed (y m wd : Nat) (hwd : wd < 7) : ∀ dd : Nat,
    countWeekdayUpTo y m wd dd =
      (dd + 6 - ((wd + 7 - getDay ⟨y, m, 1⟩) % 7)) / 7 := by
  intro dd
  induction dd with
  | zero =>
    have h1 : getDay ⟨y, m, 1⟩ < 7 := getDay_lt _
    unfold countWeekdayUpTo
    simp only [List.range_zero, List.map_nil, List.countP_nil]
    omega
  | succ dd ih =>
    rw [countWeekdayUpTo_succ, ih, getDay_eq_shift y m (dd + 1)]
    have h1 : getDay ⟨y, m, 1⟩ < 7 := getDay_lt _
    split <;> omega

theorem getWeekOfMonth_pos (dt : Date) (h : 1 ≤ dt.day) : 1 ≤ getWeekOfMonth dt := by
  unfold getWeekOfMonth getDate
  omega

/-- The projector, rewritten with its `Int` offset folded into a natural
number, under the hypothesis that the target month's first weekday is at
most the desired weekday. -/
theorem addYearSameWeekday_eq (y m d : Nat) (hd : 1 ≤ d)
    (h2 : getDay ⟨y + 1, m, 1⟩ ≤ getDay ⟨y, m, d⟩) :
    addYearSameWeekday ⟨y, m, d⟩ = addDays ⟨y + 1, m, 1⟩
      (((getDay ⟨y, m, d⟩ - getDay ⟨y + 1, m, 1⟩
          + (getWeekOfMonth ⟨y, m, d⟩ - 1) * 7 : Nat) : Int)) := by
  have hk : 1 ≤ getWeekOfMonth ⟨y, m, d⟩ := getWeekOfMonth_pos _ hd
  simp only [addYearSameWeekday, getWeekdayInNthWeek, getYear, getMonth]
  congr 1
  omega

/-! ## Claims about the date projector -/

/-- C7 (confirmed): 2024-03-09, a Saturday and the 2nd Saturday of March
2024, projects to 2025-03-08, the 2nd Saturday of March 2025. -/
theorem claim7_concrete_case :
    addYearSameWeekday ⟨2024, 2, 9⟩ = ⟨2025, 2, 8⟩ ∧
    getDay ⟨2024, 2, 9⟩ = 6 ∧ countWeekdayUpTo 2024 2 6 9 = 2 ∧
    getDay ⟨2025, 2, 8⟩ = 6 ∧ countWeekdayUpTo 2025 2 6 8 = 2 := by
  decide

/-- C10 (confirmed): for 2024-09-01 (a Sunday; its month starts on a
Sunday, next year's September starts on a Monday, and its computed week is
1) the offset `-firstDayOfWeek + weekday + (week - 1) * 7` is negative and
`addYearSameWeekday` lands on 2025-08-31, before the first day of
September 2025, i.e. in the preceding month. -/
theorem claim10_lands_before_target_month :
    (⟨2024, 8, 1⟩ : Date).Valid ∧
    getDay ⟨2024, 8, 1⟩ = 0 ∧ getWeekOfMonth ⟨2024, 8, 1⟩ = 1 ∧
    getDay ⟨2025, 8, 1⟩ = 1 ∧
    (-(getDay (⟨2025, 8, 1⟩ : Date) : Int) + (getDay (⟨2024, 8, 1⟩ : Date) : Int)
      + ((getWeekOfMonth (⟨2024, 8, 1⟩ : Date) : Int) - 1) * 7) = -1 ∧
    addYearSameWeekday ⟨2024, 8, 1⟩ = ⟨2025, 7, 31⟩ ∧
    toDays (addYearSameWeekday ⟨2024, 8, 1⟩) < toDays ⟨2025, 8, 1⟩ := by
  decide

/-- C1 (counterexample): at 2024-09-01 the projected date 2025-08-31 does
not fall in the month of the input date, contradicting the claim that the
output always falls in month(D) of year(D)+1. -/
theorem claim1_counterexample :
    (⟨2024, 8, 1⟩ : Date).Valid ∧
    addYearSameWeekday ⟨2024, 8, 1⟩ = ⟨2025, 7, 31⟩ ∧
    getMonth (addYearSameWeekday ⟨2024, 8, 1⟩) ≠ getMonth ⟨2024, 8, 1⟩ := by
  decide

/-- C1 (amended): if the weekday of D is not earlier in the Sunday-first
week than the first day of D's month and than the first day of the target
month, and the required slot exists in the target month, then
`addYearSameWeekday` produces a date in month(D) of year(D)+1 with the
same weekday, and its ordinal position among that weekday's occurrences in
the target month equals D's ordinal position in its own month. -/
theorem claim1_amended (dt : Date) (hv : dt.Valid)
    (h1 : getDay (startOfMonth dt) ≤ getDay dt)
    (h2 : getDay ⟨dt.year + 1, dt.month, 1⟩ ≤ getDay dt)
    (h3 : 1 + (getDay dt - getDay ⟨dt.year + 1, dt.month, 1⟩)
            + (getWeekOfMonth dt - 1) * 7 ≤ daysInMonth (dt.year + 1) dt.month) :
    (addYearSameWeekday dt).year = dt.year + 1 ∧
    (addYearSameWeekday dt).month = dt.month ∧
    (addYearSameWeekday dt).Valid ∧
    getDay (addYearSameWeekday dt) = getDay dt ∧
    countWeekdayUpTo (dt.year + 1) dt.month (getDay dt) (addYearSameWeekday dt).day
      = countWeekdayUpTo dt.year dt.month (getDay dt) dt.day := by
  obtain ⟨y, m, d⟩ := dt
  obtain ⟨hy, hm, hd1, hd2⟩ := hv
  have hd1' : 1 ≤ d := hd1
  have hd2' : d ≤ daysInMonth y m := hd2
  have h1' : getDay ⟨y, m, 1⟩ ≤ getDay ⟨y, m, d⟩ := h1
  have h2' : getDay ⟨y + 1, m, 1⟩ ≤ getDay ⟨y, m, d⟩ := h2
  have h3' : 1 + (getDay ⟨y, m, d⟩ - getDay ⟨y + 1, m, 1⟩)
      + (getWeekOfMonth ⟨y, m, d⟩ - 1) * 7 ≤ daysInMonth (y + 1) m := h3
  have hm' : m ≤ 11 := hm
  clear h1 h2 h3 hd1 hd2 hm
  have hk : 1 ≤ getWeekOfMonth ⟨y, m, d⟩ := getWeekOfMonth_pos _ hd1'
  have hwd : getDay ⟨y, m, d⟩ < 7 := getDay_lt _
  have hw1 : getDay ⟨y, m, 1⟩ < 7 := getDay_lt _
  have hw1t : getDay ⟨y + 1, m, 1⟩ < 7 := getDay_lt _
  have heq2 : addYearSameWeekday ⟨y, m, d⟩ =
      ⟨y + 1, m,
        getDay ⟨y, m, d⟩ - getDay ⟨y + 1, m, 1⟩ + (getWeekOfMonth ⟨y, m, d⟩ - 1) * 7 + 1⟩ := by
    rw [addYearSameWeekday_eq y m d hd1' h2']
    exact addDays_first_in _ _ _ (by omega)
  have hshift : getDay ⟨y, m, d⟩ = (getDay ⟨y, m, 1⟩ + (d - 1)) % 7 := getDay_eq_shift y m d
  rw [heq2]
  refine ⟨rfl, rfl, ⟨?_, ?_, ?_, ?_⟩, ?_, ?_⟩
  · show 1 ≤ y + 1
    omega
  · show m ≤ 11
    exact hm'
  · show 1 ≤ getDay ⟨y, m, d⟩ - getDay ⟨y + 1, m, 1⟩ + (getWeekOfMonth ⟨y, m, d⟩ - 1) * 7 + 1
    omega
  · show getDay ⟨y, m, d⟩ - getDay ⟨y + 1, m, 1⟩ + (getWeekOfMonth ⟨y, m, d⟩ - 1) * 7 + 1
        ≤ daysInMonth (y + 1) m
    omega
  · show getDay ⟨y + 1, m,
        getDay ⟨y, m, d⟩ - getDay ⟨y + 1, m, 1⟩ + (getWeekOfMonth ⟨y, m, d⟩ - 1) * 7 + 1⟩
      = getDay ⟨y, m, d⟩
    rw [getDay_eq_shift]
    omega
  · show countWeekdayUpTo (y + 1) m (getDay ⟨y, m, d⟩)
        (getDay ⟨y, m, d⟩ - getDay ⟨y + 1, m, 1⟩ + (getWeekOfMonth ⟨y, m, d⟩ - 1) * 7 + 1)
      = countWeekdayUpTo y m (getDay ⟨y, m, d⟩) d
    rw [countWeekdayUpTo_closed _ _ _ hwd, countWeekdayUpTo_closed _ _ _ hwd]
    have hwom : getWeekOfMonth ⟨y, m, d⟩ = (d + getDay ⟨y, m, 1⟩ + 6) / 7 := rfl
    omega

/-- C1 (witness): the amended claim applies to 2024-03-09. -/
theorem claim1_witness :
    (addYearSameWeekday ⟨2024, 2, 9⟩).year = 2025 ∧
    (addYearSameWeekday ⟨2024, 2, 9⟩).month = 2 ∧
    (addYearSameWeekday ⟨2024, 2, 9⟩).Valid ∧
    getDay (addYearSameWeekday ⟨2024, 2, 9⟩) = getDay ⟨2024, 2, 9⟩ ∧
    countWeekdayUpTo 2025 2 (getDay ⟨2024, 2, 9⟩) (addYearSameWeekday ⟨2024, 2, 9⟩).day
      = countWeekdayUpTo 2024 2 (getDay ⟨2024, 2, 9⟩) 9 := by
  have h := claim1_amended ⟨2024, 2, 9⟩ (by decide) (by decide) (by decide) (by decide)
  simpa using h

/-- C6 (counterexample): at 2024-09-08 the computed week index is
`k = ceil((8 + 0) / 7) = 2`, yet the projected date 2025-09-07 is the 1st
(not the 2nd) occurrence of the weekday in the target month: the final
step does not land on the k-th occurrence. -/
theorem claim6_counterexample :
    (⟨2024, 8, 8⟩ : Date).Valid ∧
    getWeekOfMonth ⟨2024, 8, 8⟩ = 2 ∧
    addYearSameWeekday ⟨2024, 8, 8⟩ = ⟨2025, 8, 7⟩ ∧
    getDay ⟨2025, 8, 7⟩ = getDay ⟨2024, 8, 8⟩ ∧
    countWeekdayUpTo 2025 8 (getDay ⟨2024, 8, 8⟩) 7 = 1 := by
  decide

/-- C6 (amended): the projector computes
`k = ceil((dayOfMonth + weekdayOfFirst) / 7)`, locates the first day of
the target month, offsets by `weekday - firstDayOfWeek`, and adds
`(k-1)*7` days; this lands on the k-th occurrence of the weekday in the
target month provided the desired weekday is not earlier in the week than
the target month's first day and the k-th slot exists in that month. -/
theorem claim6_amended (dt : Date) (hv : dt.Valid)
    (h2 : getDay ⟨dt.year + 1, dt.month, 1⟩ ≤ getDay dt)
    (h3 : 1 + (getDay dt - getDay ⟨dt.year + 1, dt.month, 1⟩)
            + (getWeekOfMonth dt - 1) * 7 ≤ daysInMonth (dt.year + 1) dt.month) :
    getWeekOfMonth dt = (getDate dt + getDay (startOfMonth dt) + 6) / 7 ∧
    addYearSameWeekday dt = addDays ⟨dt.year + 1, dt.month, 1⟩
      (-(getDay (⟨dt.year + 1, dt.month, 1⟩ : Date) : Int) + (getDay dt : Int)
        + ((getWeekOfMonth dt : Int) - 1) * 7) ∧
    (addYearSameWeekday dt).year = dt.year + 1 ∧
    (addYearSameWeekday dt).month = dt.month ∧
    getDay (addYearSameWeekday dt) = getDay dt ∧
    countWeekdayUpTo (dt.year + 1) dt.month (getDay dt) (addYearSameWeekday dt).day
      = getWeekOfMonth dt := by
  obtain ⟨y, m, d⟩ := dt
  obtain ⟨hy, hm, hd1, hd2⟩ := hv
  have hd1' : 1 ≤ d := hd1
  have h2' : getDay ⟨y + 1, m, 1⟩ ≤ getDay ⟨y, m, d⟩ := h2
  have h3' : 1 + (getDay ⟨y, m, d⟩ - getDay ⟨y + 1, m, 1⟩)
      + (getWeekOfMonth ⟨y, m, d⟩ - 1) * 7 ≤ daysInMonth (y + 1) m := h3
  clear h2 h3 hd1 hd2
  have hk : 1 ≤ getWeekOfMonth ⟨y, m, d⟩ := getWeekOfMonth_pos _ hd1'
  have hwd : getDay ⟨y, m, d⟩ < 7 := getDay_lt _
  have hw1t : getDay ⟨y + 1, m, 1⟩ < 7 := getDay_lt _
  have heq2 : addYearSameWeekday ⟨y, m, d⟩ =
      ⟨y + 1, m,
        getDay ⟨y, m, d⟩ - getDay ⟨y + 1, m, 1⟩ + (getWeekOfMonth ⟨y, m, d⟩ - 1) * 7 + 1⟩ := by
    rw [addYearSameWeekday_eq y m d hd1' h2']
    exact addDays_first_in _ _ _ (by omega)
  refine ⟨rfl, ?_, ?_, ?_, ?_, ?_⟩
  · simp only [addYearSameWeekday, getWeekdayInNthWeek, getYear, getMonth]
  · rw [heq2]
  · rw [heq2]
  · rw [heq2]
    show getDay ⟨y + 1, m,
        getDay ⟨y, m, d⟩ - getDay ⟨y + 1, m, 1⟩ + (getWeekOfMonth ⟨y, m, d⟩ - 1) * 7 + 1⟩
      = getDay ⟨y, m, d⟩
    rw [getDay_eq_shift]
    omega
  · rw [heq2]
    show countWeekdayUpTo (y + 1) m (getDay ⟨y, m, d⟩)
        (getDay ⟨y, m, d⟩ - getDay ⟨y + 1, m, 1⟩ + (getWeekOfMonth ⟨y, m, d⟩ - 1) * 7 + 1)
      = getWeekOfMonth ⟨y, m, d⟩
    rw [countWeekdayUpTo_closed _ _ _ hwd]
    omega

/-- C6 (witness): the amended claim applies to 2024-03-30, the 5th
Saturday of March 2024, landing on 2025-03-29, the 5th Saturday of March
2025. -/
theorem claim6_witness :
    getWeekOfMonth ⟨2024, 2, 30⟩
      = (getDate ⟨2024, 2, 30⟩ + getDay (startOfMonth ⟨2024, 2, 30⟩) + 6) / 7 ∧
    addYearSameWeekday ⟨2024, 2, 30⟩ = addDays ⟨2025, 2, 1⟩
      (-(getDay (⟨2025, 2, 1⟩ : Date) : Int) + (getDay (⟨2024, 2, 30⟩ : Date) : Int)
        + ((getWeekOfMonth (⟨2024, 2, 30⟩ : Date) : Int) - 1) * 7) ∧
    (addYearSameWeekday ⟨2024, 2, 30⟩).year = 2025 ∧
    (addYearSameWeekday ⟨2024, 2, 30⟩).month = 2 ∧
    getDay (addYearSameWeekday ⟨2024, 2, 30⟩) = getDay ⟨2024, 2, 30⟩ ∧
    countWeekdayUpTo 2025 2 (getDay ⟨2024, 2, 30⟩) (addYearSameWeekday ⟨2024, 2, 30⟩).day
      = getWeekOfMonth ⟨2024, 2, 30⟩ := by
  have h := claim6_amended ⟨2024, 2, 30⟩ (by decide) (by decide) (by decide)
  simpa using h

/-- C8 (counterexample): 2024-09-29 is the 5th Sunday of September 2024
and September 2025 has only 4 Sundays, yet the projected date 2025-09-28
stays inside September 2025 (it is its 4th Sunday) instead of spilling
into the following month as the claim requires. -/
theorem claim8_counterexample :
    (⟨2024, 8, 29⟩ : Date).Valid ∧
    countWeekdayUpTo 2024 8 (getDay ⟨2024, 8, 29⟩) 29 = 5 ∧
    countWeekday 2025 8 (getDay ⟨2024, 8, 29⟩) = 4 ∧
    addYearSameWeekday ⟨2024, 8, 29⟩ = ⟨2025, 8, 28⟩ ∧
    getMonth (addYearSameWeekday ⟨2024, 8, 29⟩) = getMonth ⟨2024, 8, 29⟩ := by
  decide

/-- C8 (amended): if D is the 5th occurrence of its weekday in its month,
the same month of year(D)+1 has only 4 occurrences of that weekday, and
additionally D's weekday is not earlier in the week than the first day of
the target month, then the projection spills into the month following
month(D) of year(D)+1, with the day obtained by counting
`weekday - firstDayOfWeek + (k-1)*7` days past the target month's first
day with no clamping. -/
theorem claim8_amended (dt : Date) (hv : dt.Valid)
    (h5 : countWeekdayUpTo dt.year dt.month (getDay dt) dt.day = 5)
    (hc : countWeekday (dt.year + 1) dt.month (getDay dt) = 4)
    (h2 : getDay ⟨dt.year + 1, dt.month, 1⟩ ≤ getDay dt) :
    ((addYearSameWeekday dt).year, (addYearSameWeekday dt).month)
      = (if dt.month = 11 then (dt.year + 2, 0) else (dt.year + 1, dt.month + 1)) ∧
    (addYearSameWeekday dt).Valid ∧
    (addYearSameWeekday dt).day
      = getDay dt - getDay ⟨dt.year + 1, dt.month, 1⟩ + (getWeekOfMonth dt - 1) * 7 + 1
        - daysInMonth (dt.year + 1) dt.month := by
  obtain ⟨y, m, d⟩ := dt
  obtain ⟨hy, hm, hd1, hd2⟩ := hv
  have hd1' : 1 ≤ d := hd1
  have hd2' : d ≤ daysInMonth y m := hd2
  have hm' : m ≤ 11 := hm
  have h5' : countWeekdayUpTo y m (getDay ⟨y, m, d⟩) d = 5 := h5
  have hc' : countWeekdayUpTo (y + 1) m (getDay ⟨y, m, d⟩) (daysInMonth (y + 1) m) = 4 := hc
  have h2' : getDay ⟨y + 1, m, 1⟩ ≤ getDay ⟨y, m, d⟩ := h2
  clear h5 hc h2 hd1 hd2 hm
  have hk : 1 ≤ getWeekOfMonth ⟨y, m, d⟩ := getWeekOfMonth_pos _ hd1'
  have hwd : getDay ⟨y, m, d⟩ < 7 := getDay_lt _
  have hw1 : getDay ⟨y, m, 1⟩ < 7 := getDay_lt _
  have hw1t : getDay ⟨y + 1, m, 1⟩ < 7 := getDay_lt _
  have hshift : getDay ⟨y, m, d⟩ = (getDay ⟨y, m, 1⟩ + (d - 1)) % 7 := getDay_eq_shift y m d
  have hwom : getWeekOfMonth ⟨y, m, d⟩ = (d + getDay ⟨y, m, 1⟩ + 6) / 7 := rfl
  rw [countWeekdayUpTo_closed _ _ _ hwd] at h5' hc'
  have hLmax : daysInMonth y m ≤ 31 := daysInMonth_le y m
  have hLtmin : 28 ≤ daysInMonth (y + 1) m := daysInMonth_ge (y + 1) m
  have hLtmax : daysInMonth (y + 1) m ≤ 31 := daysInMonth_le (y + 1) m
  have hlow : daysInMonth (y + 1) m
      < getDay ⟨y, m, d⟩ - getDay ⟨y + 1, m, 1⟩ + (getWeekOfMonth ⟨y, m, d⟩ - 1) * 7 + 1 := by
    omega
  rcases Nat.lt_or_ge m 11 with hm10 | hm11
  · have hnext : 28 ≤ daysInMonth (y + 1) (m + 1) := daysInMonth_ge (y + 1) (m + 1)
    have hhigh : getDay ⟨y, m, d⟩ - getDay ⟨y + 1, m, 1⟩ + (getWeekOfMonth ⟨y, m, d⟩ - 1) * 7 + 1
        ≤ daysInMonth (y + 1) m + daysInMonth (y + 1) (m + 1) := by
      omega
    have heq2 : addYearSameWeekday ⟨y, m, d⟩ =
        ⟨y + 1, m + 1,
          getDay ⟨y, m, d⟩ - getDay ⟨y + 1, m, 1⟩ + (getWeekOfMonth ⟨y, m, d⟩ - 1) * 7 + 1
            - daysInMonth (y + 1) m⟩ := by
      rw [addYearSameWeekday_eq y m d hd1' h2']
      exact addDays_first_spill (y + 1) m (by omega) _ (by omega) hhigh
    rw [heq2]
    refine ⟨?_, ⟨?_, ?_, ?_, ?_⟩, rfl⟩
    · show ((y + 1 : Nat), (m + 1 : Nat)) = if m = 11 then (y + 2, 0) else (y + 1, m + 1)
      rw [if_neg (show ¬ m = 11 by omega)]
    · show 1 ≤ y + 1
      omega
    · show m + 1 ≤ 11
      omega
    · show 1 ≤ getDay ⟨y, m, d⟩ - getDay ⟨y + 1, m, 1⟩ + (getWeekOfMonth ⟨y, m, d⟩ - 1) * 7 + 1
          - daysInMonth (y + 1) m
      omega
    · show getDay ⟨y, m, d⟩ - getDay ⟨y + 1, m, 1⟩ + (getWeekOfMonth ⟨y, m, d⟩ - 1) * 7 + 1
          - daysInMonth (y + 1) m ≤ daysInMonth (y + 1) (m + 1)
      omega
  · have hmeq : m = 11 := by omega
    subst hmeq
    have hdim11 : daysInMonth (y + 1) 11 = 31 := by unfold daysInMonth; norm_num
    have hjan : daysInMonth (y + 2) 0 = 31 := by unfold daysInMonth; norm_num
    have heq2 : addYearSameWeekday ⟨y, 11, d⟩ =
        ⟨y + 2, 0,
          getDay ⟨y, 11, d⟩ - getDay ⟨y + 1, 11, 1⟩ + (getWeekOfMonth ⟨y, 11, d⟩ - 1) * 7 + 1
            - 31⟩ := by
      rw [addYearSameWeekday_eq y 11 d hd1' h2']
      exact addDays_first_spill_dec (y + 1) _ (by omega) (by omega)
    rw [heq2]
    refine ⟨?_, ⟨?_, ?_, ?_, ?_⟩, ?_⟩
    · show ((y + 2 : Nat), (0 : Nat)) = if (11 : Nat) = 11 then (y + 2, 0) else (y + 1, 11 + 1)
      rw [if_pos rfl]
    · show 1 ≤ y + 2
      omega
    · show (0 : Nat) ≤ 11
      omega
    · show 1 ≤ getDay ⟨y, 11, d⟩ - getDay ⟨y + 1, 11, 1⟩ + (getWeekOfMonth ⟨y, 11, d⟩ - 1) * 7 + 1
          - 31
      omega
    · show getDay ⟨y, 11, d⟩ - getDay ⟨y + 1, 11, 1⟩ + (getWeekOfMonth ⟨y, 11, d⟩ - 1) * 7 + 1
          - 31 ≤ daysInMonth (y + 2) 0
      omega
    · show getDay ⟨y, 11, d⟩ - getDay ⟨y + 1, 11, 1⟩ + (getWeekOfMonth ⟨y, 11, d⟩ - 1) * 7 + 1
          - 31
        = getDay ⟨y, 11, d⟩ - getDay ⟨y + 1, 11, 1⟩ + (getWeekOfMonth ⟨y, 11, d⟩ - 1) * 7 + 1
          - daysInMonth (y + 1) 11
      omega

/-- C8 (witness): the amended claim applies to 2008-02-29, the 5th Friday
of February 2008; February 2009 has only 4 Fridays and the projection
spills to 2009-03-06. -/
theorem claim8_witness :
    ((addYearSameWeekday ⟨2008, 1, 29⟩).year, (addYearSameWeekday ⟨2008, 1, 29⟩).month)
      = (2009, 2) ∧
    (addYearSameWeekday ⟨2008, 1, 29⟩).Valid ∧
    (addYearSameWeekday ⟨2008, 1, 29⟩).day
      = getDay ⟨2008, 1, 29⟩ - getDay ⟨2009, 1, 1⟩ + (getWeekOfMonth ⟨2008, 1, 29⟩ - 1) * 7 + 1
        - daysInMonth 2009 1 := by
  have h := claim8_amended ⟨2008, 1, 29⟩ (by decide) (by decide) (by decide) (by decide)
  simpa using h

/-! ## JSON model

A JSON-like value as the serializer receives it.  A mapping entry whose
value is `none` models a key whose value is JavaScript `undefined`
("explicitly absent"); numbers are modelled as integers. -/

inductive Json where
  | null
  | bool (b : Bool)
  | num (n : Int)
  | str (s : String)
  | arr (elements : List Json)
  | obj (fields : List (String × Option Json))

/-- ajv's `ErrorObject`, restricted to the two fields the serializer
reads: the slash-delimited instance path and the message. -/
structure ErrorObject where
  instancePath : String
  message : String
deriving DecidableEq, Repr

/-! ## Decimal rendering (structural, so that it evaluates) -/

/-- Decimal digit characters of `n`, most significant first; the first
argument is fuel (any amount above `n` gives the digits of `n`). -/
def natCharsAux : Nat → Nat → List Char
  | 0, _ => []
  | fuel + 1, n =>
    if n < 10 then [Nat.digitChar n]
    else natCharsAux fuel (n / 10) ++ [Nat.digitChar (n % 10)]

/-- Decimal digit characters of `n`, most significant first. -/
def natChars (n : Nat) : List Char := natCharsAux (n + 1) n

/-- Decimal rendering of a natural number, as JavaScript renders it. -/
def natLit (n : Nat) : String := String.mk (natChars n)

/-- Decimal rendering of an integer, as `JSON.stringify` renders it. -/
def intLit (n : Int) : String :=
  if n < 0 then "-" ++ natLit n.natAbs else natLit n.natAbs

/-! ## String escaping, as in `JSON.stringify` -/

/-- Lower-case hexadecimal digit for `n < 16`. -/
def hexChar (n : Nat) : Char :=
  if n < 10 then Char.ofNat (48 + n) else Char.ofNat (87 + n)

/-- JSON escape of one character (`JSON.stringify`'s table: quote and
backslash, the five short escapes, `\u00XX` for other control characters,
everything else literal). -/
def escapeChar (c : Char) : List Char :=
  if c = '"' then ['\\', '"']
  else if c = '\\' then ['\\', '\\']
  else if c = '\n' then ['\\', 'n']
  else if c = '\r' then ['\\', 'r']
  else if c = '\t' then ['\\', 't']
  else if c = Char.ofNat 8 then ['\\', 'b']
  else if c = Char.ofNat 12 then ['\\', 'f']
  else if c.toNat < 32 then ['\\', 'u', '0', '0', hexChar (c.toNat / 16), hexChar (c.toNat % 16)]
  else [c]

/-- `JSON.stringify` of a string: quoted and escaped. -/
def quoteString (s : String) : String :=
  "\"" ++ String.mk (s.data.flatMap escapeChar) ++ "\""

/-! ## Error grouping, as in the source

The source builds `errorsByPath: Record<string, ErrorObject[]>` by pushing
each error onto the bucket of its `instancePath`, then looks paths up in
that record. -/

/-- Push one error onto the bucket of its instance path (`??=` followed by
`push` in the source). -/
def pushError (acc : List (String × List ErrorObject)) (e : ErrorObject) :
    List (String × List ErrorObject) :=
  match acc with
  | [] => [(e.instancePath, [e])]
  | (p, es) :: rest =>
    if p = e.instancePath then (p, es ++ [e]) :: rest
    else (p, es) :: pushError rest e

/-- The `errorsByPath` record: buckets keyed by instance path, errors in
encounter order within each bucket. -/
def errorsByPath (errors : List ErrorObject) : List (String × List ErrorObject) :=
  errors.foldl pushError []

/-- Record lookup with `?? []`: the errors whose bucket is `path`. -/
def errorsFor (errors : List ErrorObject) (path : String) : List ErrorObject :=
  match (errorsByPath errors).find? (fun kv => kv.1 == path) with
  | some kv => kv.2
  | none => []

/-- The annotation appended to a line:
`errors.length > 0 ? ` // errors.map(e => e.message).join(", ")` : ""`. -/
def annotationFor (errors : List ErrorObject) (path : String) : String :=
  let es := errorsFor errors path
  if 0 < es.length then " // " ++ String.intercalate ", " (es.map (·.message)) else ""

/-! ## The serializer, transcribed from the source -/

/-- `indent.repeat(depth)` where `indent = " ".repeat(space)`. -/
def indentStr (space depth : Nat) : String :=
  String.mk (List.replicate (space * depth) ' ')

/-- Number of mapping entries that survive the `!== undefined` filter. -/
def countPresent (fields : List (String × Option Json)) : Nat :=
  fields.countP (fun kv => kv.2.isSome)

mutual

/-- The inner `stringify(parent, value, depth)` of `myStringifyWithErrors`
(the acyclic case: on trees the `seen` set never fires, see the reference
model `strfy` below for the cyclic case). -/
def stringify (errors : List ErrorObject) (space : Nat) :
    String → Json → Nat → String
  | _, .null, _ => "null"
  | _, .bool true, _ => "true"
  | _, .bool false, _ => "false"
  | _, .num n, _ => intLit n
  | _, .str s, _ => quoteString s
  | _, .arr [], _ => "[]"
  | parent, .arr (x :: xs), depth =>
    "[\n"
      ++ String.intercalate "\n"
          (stringifyItems errors space parent 0 (xs.length + 1) depth (x :: xs))
      ++ "\n" ++ indentStr space depth ++ "]"
  | parent, .obj fields, depth =>
    if countPresent fields = 0 then "\x7b\x7d"
    else
      "\x7b\n"
        ++ String.intercalate "\n"
            (stringifyEntries errors space parent 0 (countPresent fields) depth fields)
        ++ "\n" ++ indentStr space depth ++ "\x7d"

/-- The `value.map((v, i) => ...)` loop over array elements: `i` is the
index of the head, `n` the array length. -/
def stringifyItems (errors : List ErrorObject) (space : Nat)
    (parent : String) (i n depth : Nat) : List Json → List String
  | [] => []
  | x :: xs =>
    (indentStr space (depth + 1)
        ++ stringify errors space (parent ++ "/" ++ natLit i) x (depth + 1)
        ++ (if i < n - 1 then "," else "")
        ++ annotationFor errors (parent ++ "/" ++ natLit i))
      :: stringifyItems errors space parent (i + 1) n depth xs

/-- The `keys.map((k, i) => ...)` loop over mapping entries: entries whose
value is absent are skipped; `i` counts emitted entries and `n` is the
total number of present entries. -/
def stringifyEntries (errors : List ErrorObject) (space : Nat)
    (parent : String) (i n depth : Nat) : List (String × Option Json) → List String
  | [] => []
  | (_, none) :: rest => stringifyEntries errors space parent i n depth rest
  | (k, some v) :: rest =>
    (indentStr space (depth + 1)
        ++ quoteString k ++ ": "
        ++ stringify errors space (parent ++ "/" ++ k) v (depth + 1)
        ++ (if i < n - 1 then "," else "")
        ++ annotationFor errors (parent ++ "/" ++ k))
      :: stringifyEntries errors space parent (i + 1) n depth rest

end

/-- `myStringifyWithErrors(value, errors, space)` on an acyclic value. -/
def myStringifyWithErrors (value : Json) (errors : List ErrorObject) (space : Nat) : String :=
  stringify errors space "" value 0

/-! ## Erasing absent entries -/

mutual

/-- Remove explicitly absent mapping entries everywhere in a value. -/
def eraseAbsent : Json → Json
  | .null => .null
  | .bool b => .bool b
  | .num n => .num n
  | .str s => .str s
  | .arr xs => .arr (eraseAbsentList xs)
  | .obj fields => .obj (eraseAbsentFields fields)

def eraseAbsentList : List Json → List Json
  | [] => []
  | x :: xs => eraseAbsent x :: eraseAbsentList xs

def eraseAbsentFields : List (String × Option Json) → List (String × Option Json)
  | [] => []
  | (_, none) :: rest => eraseAbsentFields rest
  | (k, some v) :: rest => (k, some (eraseAbsent v)) :: eraseAbsentFields rest

end

theorem eraseAbsentList_length : ∀ xs : List Json,
    (eraseAbsentList xs).length = xs.length
  | [] => rfl
  | _ :: xs => by simp [eraseAbsentList, eraseAbsentList_length xs]

theorem countPresent_erase : ∀ fields : List (String × Option Json),
    countPresent (eraseAbsentFields fields) = countPresent fields
  | [] => rfl
  | (_, none) :: rest => by
    have ih := countPresent_erase rest
    simp [eraseAbsentFields, countPresent, List.countP_cons] at ih ⊢
    omega
  | (k, some v) :: rest => by
    have ih := countPresent_erase rest
    simp [eraseAbsentFields, countPresent, List.countP_cons] at ih ⊢
    omega

mutual

/-- Erasing absent entries does not change the serializer's output. -/
theorem stringify_erase (errors : List ErrorObject) (space : Nat) :
    ∀ (p : String) (v : Json) (d : Nat),
      stringify errors space p (eraseAbsent v) d = stringify errors space p v d
  | _, .null, _ => rfl
  | _, .bool true, _ => rfl
  | _, .bool false, _ => rfl
  | _, .num _, _ => rfl
  | _, .str _, _ => rfl
  | _, .arr [], _ => rfl
  | p, .arr (x :: xs), d => by
    show stringify errors space p (.arr (eraseAbsent x :: eraseAbsentList xs)) d = _
    simp only [stringify, eraseAbsentList_length]
    rw [show eraseAbsent x :: eraseAbsentList xs = eraseAbsentList (x :: xs) from rfl]
    rw [stringifyItems_erase errors space p 0 (xs.length + 1) d (x :: xs)]
  | p, .obj fields, d => by
    show stringify errors space p (.obj (eraseAbsentFields fields)) d = _
    simp only [stringify, countPresent_erase]
    rw [stringifyEntries_erase errors space p 0 (countPresent fields) d fields]

theorem stringifyItems_erase (errors : List ErrorObject) (space : Nat) :
    ∀ (p : String) (i n d : Nat) (xs : List Json),
      stringifyItems errors space p i n d (eraseAbsentList xs)
        = stringifyItems errors space p i n d xs
  | _, _, _, _, [] => rfl
  | p, i, n, d, x :: xs => by
    show stringifyItems errors space p i n d (eraseAbsent x :: eraseAbsentList xs) = _
    simp only [stringifyItems]
    rw [stringify_erase errors space _ x (d + 1),
      stringifyItems_erase errors space p (i + 1) n d xs]

theorem stringifyEntries_erase (errors : List ErrorObject) (space : Nat) :
    ∀ (p : String) (i n d : Nat) (fields : List (String × Option Json)),
      stringifyEntries errors space p i n d (eraseAbsentFields fields)
        = stringifyEntries errors space p i n d fields
  | _, _, _, _, [] => rfl
  | p, i, n, d, (k, none) :: rest => by
    show stringifyEntries errors space p i n d (eraseAbsentFields rest) = _
    simp only [stringifyEntries]
    exact stringifyEntries_erase errors space p i n d rest
  | p, i, n, d, (k, some v) :: rest => by
    show stringifyEntries errors space p i n d ((k, some (eraseAbsent v)) :: eraseAbsentFields rest) = _
    simp only [stringifyEntries]
    rw [stringify_erase errors space _ v (d + 1),
      stringifyEntries_erase errors space p (i + 1) n d rest]

end

/-! ## Line splitting (for claims about printed lines) -/

/-- Split a character list at newlines. -/
def splitLines : List Char → List (List Char)
  | [] => [[]]
  | c :: rest =>
    if c = '\n' then [] :: splitLines rest
    else
      match splitLines rest with
      | [] => [[c]]
      | l :: ls => (c :: l) :: ls

/-! ## Joining lines -/

theorem intercalate_go_factor (s x : String) : ∀ (l : List String) (y : String),
    String.intercalate.go (x ++ y) s l = x ++ String.intercalate.go y s l
  | [], y => rfl
  | a :: l, y => by
    show String.intercalate.go (x ++ y ++ s ++ a) s l = _
    rw [String.append_assoc, String.append_assoc, intercalate_go_factor s x l (y ++ (s ++ a))]
    show _ = x ++ String.intercalate.go (y ++ s ++ a) s l
    rw [String.append_assoc y s a]

theorem intercalate_two (s a b : String) (l : List String) :
    String.intercalate s (a :: b :: l) = a ++ s ++ String.intercalate s (b :: l) := by
  show String.intercalate.go a s (b :: l) = _
  show String.intercalate.go (a ++ s ++ b) s l = _
  rw [String.append_assoc a s b, intercalate_go_factor s a l (s ++ b),
    intercalate_go_factor s s l b]
  exact (String.append_assoc a s (String.intercalate.go b s l)).symm

theorem intercalate_split (s : String) :
    ∀ (A B : List String), A ≠ [] → B ≠ [] →
      String.intercalate s (A ++ B) = String.intercalate s A ++ s ++ String.intercalate s B
  | [], _, hA, _ => absurd rfl hA
  | [a], b :: B, _, _ => intercalate_two s a b B
  | a :: a' :: A, B, _, hB =>
    calc String.intercalate s ((a :: a' :: A) ++ B)
        = a ++ s ++ String.intercalate s ((a' :: A) ++ B) :=
          intercalate_two s a a' (A ++ B)
      _ = a ++ s ++ (String.intercalate s (a' :: A) ++ s ++ String.intercalate s B) := by
          rw [intercalate_split s (a' :: A) B (by simp) hB]
      _ = (a ++ s ++ String.intercalate s (a' :: A)) ++ s ++ String.intercalate s B := by
          simp [String.append_assoc]
      _ = String.intercalate s (a :: a' :: A) ++ s ++ String.intercalate s B := by
          rw [intercalate_two]

/-! ## The grouping record gives exactly the equal-path errors -/

/-- Lookup in the grouping record, with `?? []`. -/
def recordLookup (acc : List (String × List ErrorObject)) (p : String) : List ErrorObject :=
  match acc.find? (fun kv => kv.1 == p) with
  | some kv => kv.2
  | none => []

theorem recordLookup_cons_eq (k : String) (es : List ErrorObject)
    (acc : List (String × List ErrorObject)) :
    recordLookup ((k, es) :: acc) k = es := by
  simp [recordLookup, List.find?]

theorem recordLookup_cons_ne (k p : String) (h : k ≠ p) (es : List ErrorObject)
    (acc : List (String × List ErrorObject)) :
    recordLookup ((k, es) :: acc) p = recordLookup acc p := by
  have hb : (k == p) = false := beq_eq_false_iff_ne.mpr h
  simp [recordLookup, List.find?, hb]

theorem recordLookup_push (e : ErrorObject) (p : String)
    (acc : List (String × List ErrorObject)) :
    recordLookup (pushError acc e) p
      = recordLookup acc p ++ (if e.instancePath == p then [e] else []) := by
  induction acc with
  | nil =>
    by_cases h : e.instancePath = p
    · rw [show pushError [] e = [(e.instancePath, [e])] from rfl, h, recordLookup_cons_eq]
      simp [recordLookup]
    · rw [show pushError [] e = [(e.instancePath, [e])] from rfl, recordLookup_cons_ne _ _ h,
        beq_eq_false_iff_ne.mpr h]
      rfl
  | cons head rest ih =>
    obtain ⟨q, es⟩ := head
    by_cases hqe : q = e.instancePath
    · rw [show pushError ((q, es) :: rest) e = (q, es ++ [e]) :: rest from by simp [pushError, hqe]]
      by_cases hqp : q = p
      · rw [← hqp, recordLookup_cons_eq, recordLookup_cons_eq,
          if_pos (beq_iff_eq.mpr hqe.symm)]
      · have hef : (e.instancePath == p) = false :=
          beq_eq_false_iff_ne.mpr (fun hh => hqp (hqe.trans hh))
        rw [recordLookup_cons_ne _ _ hqp, recordLookup_cons_ne _ _ hqp, hef]
        simp
    · rw [show pushError ((q, es) :: rest) e = (q, es) :: pushError rest e from
        by simp [pushError, hqe]]
      by_cases hqp : q = p
      · have hef : (e.instancePath == p) = false :=
          beq_eq_false_iff_ne.mpr (fun hh => hqe (hqp.trans hh.symm))
        rw [← hqp, recordLookup_cons_eq, recordLookup_cons_eq]
        rw [← hqp] at hef
        rw [hef]
        simp
      · rw [recordLookup_cons_ne _ _ hqp, recordLookup_cons_ne _ _ hqp]
        exact ih

theorem recordLookup_foldl (p : String) :
    ∀ (errors : List ErrorObject) (acc : List (String × List ErrorObject)),
      recordLookup (errors.foldl pushError acc) p
        = recordLookup acc p ++ errors.filter (fun e => e.instancePath == p)
  | [], acc => by simp
  | e :: es, acc => by
    rw [List.foldl_cons, recordLookup_foldl p es (pushError acc e), recordLookup_push,
      List.filter_cons]
    by_cases h : (e.instancePath == p) = true
    · simp [h]
    · simp [h]

/-- The grouping record built by the source retrieves, for any path,
exactly the errors whose `instancePath` equals it (by string equality),
in encounter order. -/
theorem errorsFor_eq_filter (errors : List ErrorObject) (p : String) :
    errorsFor errors p = errors.filter (fun e => e.instancePath == p) := by
  show recordLookup (errorsByPath errors) p = _
  rw [errorsByPath, recordLookup_foldl p errors []]
  rfl

/-- The annotation is empty when no error path matches exactly, and
otherwise is ` // ` followed by the matching messages joined by `, `. -/
theorem annotationFor_eq (errors : List ErrorObject) (p : String) :
    annotationFor errors p =
      if errors.filter (fun e => e.instancePath == p) = [] then ""
      else " // " ++ String.intercalate ", "
            ((errors.filter (fun e => e.instancePath == p)).map (·.message)) := by
  unfold annotationFor
  rw [errorsFor_eq_filter]
  rcases h : errors.filter (fun e => e.instancePath == p) with _ | ⟨e, es⟩
  · rw [h]
    simp
  · rw [h]
    simp

/-! ## The output as a list of printed lines

`stringifyL` performs the same traversal as `stringify` but returns the
printed lines, each carrying the path whose annotation the serializer
appended to it (`none` for lines that get no annotation: brackets, the
root, and leaf lines of the root).  The agreement theorem below proves
that joining these lines with newlines is exactly the serializer's
output. -/

structure Line where
  core : String
  tag : Option String
deriving DecidableEq, Repr

/-- The text of a printed line: its core, followed by the annotation of
its tagged path, if any. -/
def lineText (errors : List ErrorObject) (l : Line) : String :=
  match l.tag with
  | some p => l.core ++ annotationFor errors p
  | none => l.core

/-- Append a separator to the last line and tag it with a path. -/
def tagLast (sep path : String) : List Line → List Line
  | [] => []
  | [l] => [⟨l.core ++ sep, some path⟩]
  | l :: ls => l :: tagLast sep path ls

/-- The lines of one array element or mapping entry: the prefix (indent,
and for entries the quoted key and `: `) goes on the first line of the
child's rendering, the separator and annotation on its last. -/
def entryLines (pre sep path : String) : List Line → List Line
  | [] => []
  | [l] => [⟨pre ++ l.core ++ sep, some path⟩]
  | l :: ls => ⟨pre ++ l.core, l.tag⟩ :: tagLast sep path ls

mutual

def stringifyL (errors : List ErrorObject) (space : Nat) :
    String → Json → Nat → List Line
  | _, .null, _ => [⟨"null", none⟩]
  | _, .bool true, _ => [⟨"true", none⟩]
  | _, .bool false, _ => [⟨"false", none⟩]
  | _, .num n, _ => [⟨intLit n, none⟩]
  | _, .str s, _ => [⟨quoteString s, none⟩]
  | _, .arr [], _ => [⟨"[]", none⟩]
  | parent, .arr (x :: xs), depth =>
    ⟨"[", none⟩ :: (stringifyItemsL errors space parent 0 (xs.length + 1) depth (x :: xs)
      ++ [⟨indentStr space depth ++ "]", none⟩])
  | parent, .obj fields, depth =>
    if countPresent fields = 0 then [⟨"\x7b\x7d", none⟩]
    else ⟨"\x7b", none⟩ :: (stringifyEntriesL errors space parent 0 (countPresent fields) depth fields
      ++ [⟨indentStr space depth ++ "\x7d", none⟩])

def stringifyItemsL (errors : List ErrorObject) (space : Nat)
    (parent : String) (i n depth : Nat) : List Json → List Line
  | [] => []
  | x :: xs =>
    entryLines (indentStr space (depth + 1)) (if i < n - 1 then "," else "")
        (parent ++ "/" ++ natLit i)
        (stringifyL errors space (parent ++ "/" ++ natLit i) x (depth + 1))
      ++ stringifyItemsL errors space parent (i + 1) n depth xs

def stringifyEntriesL (errors : List ErrorObject) (space : Nat)
    (parent : String) (i n depth : Nat) : List (String × Option Json) → List Line
  | [] => []
  | (_, none) :: rest => stringifyEntriesL errors space parent i n depth rest
  | (k, some v) :: rest =>
    entryLines (indentStr space (depth + 1) ++ quoteString k ++ ": ")
        (if i < n - 1 then "," else "") (parent ++ "/" ++ k)
        (stringifyL errors space (parent ++ "/" ++ k) v (depth + 1))
      ++ stringifyEntriesL errors space parent (i + 1) n depth rest

end

/-! ### Shape facts -/

theorem stringifyL_shape (errors : List ErrorObject) (space : Nat)
    (p : String) (v : Json) (d : Nat) :
    ∃ init c, stringifyL errors space p v d = init ++ [Line.mk c none] := by
  match v with
  | .null => exact ⟨[], "null", rfl⟩
  | .bool true => exact ⟨[], "true", rfl⟩
  | .bool false => exact ⟨[], "false", rfl⟩
  | .num n => exact ⟨[], intLit n, rfl⟩
  | .str s => exact ⟨[], quoteString s, rfl⟩
  | .arr [] => exact ⟨[], "[]", rfl⟩
  | .arr (x :: xs) =>
    exact ⟨⟨"[", none⟩ :: stringifyItemsL errors space p 0 (xs.length + 1) d (x :: xs),
      indentStr space d ++ "]", by simp [stringifyL]⟩
  | .obj fields =>
    by_cases h : countPresent fields = 0
    · exact ⟨[], "\x7b\x7d", by simp [stringifyL, h]⟩
    · exact ⟨⟨"\x7b", none⟩ :: stringifyEntriesL errors space p 0 (countPresent fields) d fields,
        indentStr space d ++ "\x7d", by simp [stringifyL, h]⟩

theorem stringifyL_ne_nil (errors : List ErrorObject) (space : Nat)
    (p : String) (v : Json) (d : Nat) : stringifyL errors space p v d ≠ [] := by
  obtain ⟨init, c, h⟩ := stringifyL_shape errors space p v d
  simp [h]

theorem tagLast_cons (sep path : String) (l : Line) (ls : List Line) (h : ls ≠ []) :
    tagLast sep path (l :: ls) = l :: tagLast sep path ls := by
  cases ls with
  | nil => exact absurd rfl h
  | cons l' ls' => rfl

theorem tagLast_ne_nil (sep path : String) (ls : List Line) (h : ls ≠ []) :
    tagLast sep path ls ≠ [] := by
  cases ls with
  | nil => exact absurd rfl h
  | cons l ls' =>
    cases ls' with
    | nil => simp [tagLast]
    | cons l'' ls'' => simp [tagLast]

theorem entryLines_cons (pre sep path : String) (l : Line) (ls : List Line) (h : ls ≠ []) :
    entryLines pre sep path (l :: ls) = ⟨pre ++ l.core, l.tag⟩ :: tagLast sep path ls := by
  cases ls with
  | nil => exact absurd rfl h
  | cons l' ls' => rfl

theorem entryLines_ne_nil (pre sep path : String) (ls : List Line) (h : ls ≠ []) :
    entryLines pre sep path ls ≠ [] := by
  cases ls with
  | nil => exact absurd rfl h
  | cons l ls' =>
    cases ls' with
    | nil => simp [entryLines]
    | cons l'' ls'' => simp [entryLines]

theorem lineText_mk_head (errors : List ErrorObject) (pre c : String) (t : Option String) :
    lineText errors ⟨pre ++ c, t⟩ = pre ++ lineText errors ⟨c, t⟩ := by
  cases t with
  | none => rfl
  | some q => simp [lineText, String.append_assoc]

/-! ### Joining instrumented lines gives the entry blocks -/

theorem intercalate_single (s a : String) : String.intercalate s [a] = a := rfl

theorem tagLast_text (errors : List ErrorObject) (sep path : String) :
    ∀ (init : List Line) (lst : String),
      String.intercalate "\n" ((tagLast sep path (init ++ [Line.mk lst none])).map (lineText errors))
        = String.intercalate "\n" ((init ++ [Line.mk lst none]).map (lineText errors))
            ++ sep ++ annotationFor errors path
  | [], lst => by
    simp [tagLast, lineText, intercalate_single, String.append_assoc]
  | l :: init, lst => by
    rw [List.cons_append, tagLast_cons sep path l (init ++ [Line.mk lst none]) (by simp)]
    have hne : (tagLast sep path (init ++ [Line.mk lst none])).map (lineText errors) ≠ [] := by
      simp only [ne_eq, List.map_eq_nil_iff]
      exact tagLast_ne_nil sep path _ (by simp)
    rw [List.map_cons,
      show lineText errors l :: (tagLast sep path (init ++ [Line.mk lst none])).map (lineText errors)
        = [lineText errors l] ++ (tagLast sep path (init ++ [Line.mk lst none])).map (lineText errors)
        from rfl,
      intercalate_split "\n" _ _ (by simp) hne,
      tagLast_text errors sep path init lst,
      List.map_cons,
      show lineText errors l :: ((init ++ [Line.mk lst none]).map (lineText errors))
        = [lineText errors l] ++ ((init ++ [Line.mk lst none]).map (lineText errors))
        from rfl,
      intercalate_split "\n" _ _ (by simp) (by simp)]
    simp [String.append_assoc]

theorem entryLines_text (errors : List ErrorObject) (pre sep path : String)
    (init : List Line) (lst : String) :
    String.intercalate "\n"
        ((entryLines pre sep path (init ++ [Line.mk lst none])).map (lineText errors))
      = pre ++ String.intercalate "\n" ((init ++ [Line.mk lst none]).map (lineText errors))
          ++ sep ++ annotationFor errors path := by
  cases init with
  | nil =>
    simp [entryLines, lineText, intercalate_single, String.append_assoc]
  | cons l init' =>
    rw [List.cons_append, entryLines_cons pre sep path l (init' ++ [Line.mk lst none]) (by simp)]
    have hne : (tagLast sep path (init' ++ [Line.mk lst none])).map (lineText errors) ≠ [] := by
      simp only [ne_eq, List.map_eq_nil_iff]
      exact tagLast_ne_nil sep path _ (by simp)
    rw [List.map_cons,
      show lineText errors ⟨pre ++ l.core, l.tag⟩
            :: (tagLast sep path (init' ++ [Line.mk lst none])).map (lineText errors)
        = [lineText errors ⟨pre ++ l.core, l.tag⟩]
            ++ (tagLast sep path (init' ++ [Line.mk lst none])).map (lineText errors)
        from rfl,
      intercalate_split "\n" _ _ (by simp) hne,
      tagLast_text errors sep path init' lst,
      List.map_cons,
      show lineText errors l :: ((init' ++ [Line.mk lst none]).map (lineText errors))
        = [lineText errors l] ++ ((init' ++ [Line.mk lst none]).map (lineText errors))
        from rfl,
      intercalate_split "\n" _ _ (by simp) (by simp),
      lineText_mk_head]
    have hl : lineText errors ⟨l.core, l.tag⟩ = lineText errors l := rfl
    rw [hl]
    simp [intercalate_single, String.append_assoc]

/-! ### Nonemptiness of the line lists -/

theorem stringifyItemsL_cons_ne_nil (errors : List ErrorObject) (space : Nat)
    (p : String) (i n d : Nat) (x : Json) (xs : List Json) :
    stringifyItemsL errors space p i n d (x :: xs) ≠ [] := by
  simp only [stringifyItemsL, ne_eq, List.append_eq_nil]
  intro h
  exact entryLines_ne_nil _ _ _ _ (stringifyL_ne_nil errors space _ x (d + 1)) h.1

theorem stringifyEntriesL_ne_nil (errors : List ErrorObject) (space : Nat) (p : String) :
    ∀ (fields : List (String × Option Json)) (i n d : Nat),
      countPresent fields ≠ 0 → stringifyEntriesL errors space p i n d fields ≠ []
  | [], _, _, _, h => absurd rfl h
  | (k, none) :: rest, i, n, d, h => by
    have hr : countPresent rest ≠ 0 := by
      simpa [countPresent, List.countP_cons] using h
    simpa [stringifyEntriesL] using stringifyEntriesL_ne_nil errors space p rest i n d hr
  | (k, some v) :: rest, i, n, d, _ => by
    simp only [stringifyEntriesL, ne_eq, List.append_eq_nil]
    intro h
    exact entryLines_ne_nil _ _ _ _ (stringifyL_ne_nil errors space _ v (d + 1)) h.1

theorem stringifyItems_cons_ne_nil (errors : List ErrorObject) (space : Nat)
    (p : String) (i n d : Nat) (x : Json) (xs : List Json) :
    stringifyItems errors space p i n d (x :: xs) ≠ [] := by
  simp [stringifyItems]

theorem stringifyEntries_ne_nil (errors : List ErrorObject) (space : Nat) (p : String) :
    ∀ (fields : List (String × Option Json)) (i n d : Nat),
      countPresent fields ≠ 0 → stringifyEntries errors space p i n d fields ≠ []
  | [], _, _, _, h => absurd rfl h
  | (k, none) :: rest, i, n, d, h => by
    have hr : countPresent rest ≠ 0 := by
      simpa [countPresent, List.countP_cons] using h
    simpa [stringifyEntries] using stringifyEntries_ne_nil errors space p rest i n d hr
  | (k, some v) :: rest, i, n, d, _ => by
    simp [stringifyEntries]

theorem stringifyEntriesL_eq_nil_of_zero (errors : List ErrorObject) (space : Nat) (p : String) :
    ∀ (fields : List (String × Option Json)) (i n d : Nat),
      countPresent fields = 0 → stringifyEntriesL errors space p i n d fields = []
  | [], _, _, _, _ => rfl
  | (k, none) :: rest, i, n, d, h => by
    have hr : countPresent rest = 0 := by
      simpa [countPresent, List.countP_cons] using h
    simpa [stringifyEntriesL] using stringifyEntriesL_eq_nil_of_zero errors space p rest i n d hr
  | (k, some v) :: rest, i, n, d, h => by
    exact absurd h (by simp [countPresent, List.countP_cons])

theorem stringifyEntries_eq_nil_of_zero (errors : List ErrorObject) (space : Nat) (p : String) :
    ∀ (fields : List (String × Option Json)) (i n d : Nat),
      countPresent fields = 0 → stringifyEntries errors space p i n d fields = []
  | [], _, _, _, _ => rfl
  | (k, none) :: rest, i, n, d, h => by
    have hr : countPresent rest = 0 := by
      simpa [countPresent, List.countP_cons] using h
    simpa [stringifyEntries] using stringifyEntries_eq_nil_of_zero errors space p rest i n d hr
  | (k, some v) :: rest, i, n, d, h => by
    exact absurd h (by simp [countPresent, List.countP_cons])

/-! ### Agreement: the instrumented lines joined by newlines are the output -/

mutual

theorem stringifyL_text (errors : List ErrorObject) (space : Nat) :
    ∀ (p : String) (v : Json) (d : Nat),
      String.intercalate "\n" ((stringifyL errors space p v d).map (lineText errors))
        = stringify errors space p v d
  | _, .null, _ => rfl
  | _, .bool true, _ => rfl
  | _, .bool false, _ => rfl
  | _, .num _, _ => rfl
  | _, .str _, _ => rfl
  | _, .arr [], _ => rfl
  | p, .arr (x :: xs), d => by
    simp only [stringifyL, stringify, List.map_cons, List.map_append, List.map_cons,
      List.map_nil]
    rw [show lineText errors ⟨"[", none⟩ :: ((stringifyItemsL errors space p 0 (xs.length + 1) d
          (x :: xs)).map (lineText errors) ++ [lineText errors ⟨indentStr space d ++ "]", none⟩])
        = [lineText errors ⟨"[", none⟩]
          ++ ((stringifyItemsL errors space p 0 (xs.length + 1) d
              (x :: xs)).map (lineText errors) ++ [lineText errors ⟨indentStr space d ++ "]", none⟩])
        from rfl,
      intercalate_split "\n" _ _ (by simp) (by simp),
      intercalate_split "\n" _ _
        (by
          simp only [ne_eq, List.map_eq_nil_iff]
          exact stringifyItemsL_cons_ne_nil errors space p 0 (xs.length + 1) d x xs)
        (by simp),
      stringifyItemsL_text errors space p 0 (xs.length + 1) d (x :: xs)]
    rw [show ("[\n" : String) = "[" ++ "\n" from rfl]
    simp [lineText, intercalate_single, String.append_assoc]
  | p, .obj fields, d => by
    by_cases h : countPresent fields = 0
    · simp [stringifyL, stringify, h, lineText, intercalate_single]
    · simp only [stringifyL, stringify, if_neg h, List.map_cons, List.map_append,
        List.map_nil]
      rw [show lineText errors ⟨"\x7b", none⟩ :: ((stringifyEntriesL errors space p 0
            (countPresent fields) d fields).map (lineText errors)
            ++ [lineText errors ⟨indentStr space d ++ "\x7d", none⟩])
          = [lineText errors ⟨"\x7b", none⟩]
            ++ ((stringifyEntriesL errors space p 0 (countPresent fields) d fields).map
                (lineText errors) ++ [lineText errors ⟨indentStr space d ++ "\x7d", none⟩])
          from rfl,
        intercalate_split "\n" _ _ (by simp) (by simp),
        intercalate_split "\n" _ _
          (by
            simp only [ne_eq, List.map_eq_nil_iff]
            exact stringifyEntriesL_ne_nil errors space p fields 0 (countPresent fields) d h)
          (by simp),
        stringifyEntriesL_text errors space p fields 0 (countPresent fields) d]
      rw [show ("\x7b\n" : String) = "\x7b" ++ "\n" from rfl]
      simp [lineText, intercalate_single, String.append_assoc]

theorem stringifyItemsL_text (errors : List ErrorObject) (space : Nat) :
    ∀ (p : String) (i n d : Nat) (xs : List Json),
      String.intercalate "\n" ((stringifyItemsL errors space p i n d xs).map (lineText errors))
        = String.intercalate "\n" (stringifyItems errors space p i n d xs)
  | _, _, _, _, [] => rfl
  | p, i, n, d, [x] => by
    obtain ⟨init, c, hsh⟩ := stringifyL_shape errors space (p ++ "/" ++ natLit i) x (d + 1)
    simp only [stringifyItemsL, List.append_nil]
    rw [hsh, entryLines_text, ← hsh, stringifyL_text errors space _ x (d + 1)]
    rfl
  | p, i, n, d, x :: y :: ys => by
    obtain ⟨init, c, hsh⟩ := stringifyL_shape errors space (p ++ "/" ++ natLit i) x (d + 1)
    rw [show stringifyItemsL errors space p i n d (x :: y :: ys)
        = entryLines (indentStr space (d + 1)) (if i < n - 1 then "," else "")
            (p ++ "/" ++ natLit i)
            (stringifyL errors space (p ++ "/" ++ natLit i) x (d + 1))
          ++ stringifyItemsL errors space p (i + 1) n d (y :: ys) from rfl,
      List.map_append]
    rw [intercalate_split "\n" _ _
        (by
          simp only [ne_eq, List.map_eq_nil_iff]
          exact entryLines_ne_nil _ _ _ _ (stringifyL_ne_nil errors space _ x (d + 1)))
        (by
          simp only [ne_eq, List.map_eq_nil_iff]
          exact stringifyItemsL_cons_ne_nil errors space p (i + 1) n d y ys),
      hsh, entryLines_text, ← hsh, stringifyL_text errors space _ x (d + 1),
      stringifyItemsL_text errors space p (i + 1) n d (y :: ys)]
    rw [show stringifyItems errors space p i n d (x :: y :: ys)
        = (indentStr space (d + 1)
            ++ stringify errors space (p ++ "/" ++ natLit i) x (d + 1)
            ++ (if i < n - 1 then "," else "")
            ++ annotationFor errors (p ++ "/" ++ natLit i))
          :: stringifyItems errors space p (i + 1) n d (y :: ys) from rfl,
      show (indentStr space (d + 1)
            ++ stringify errors space (p ++ "/" ++ natLit i) x (d + 1)
            ++ (if i < n - 1 then "," else "")
            ++ annotationFor errors (p ++ "/" ++ natLit i))
          :: stringifyItems errors space p (i + 1) n d (y :: ys)
        = [indentStr space (d + 1)
            ++ stringify errors space (p ++ "/" ++ natLit i) x (d + 1)
            ++ (if i < n - 1 then "," else "")
            ++ annotationFor errors (p ++ "/" ++ natLit i)]
          ++ stringifyItems errors space p (i + 1) n d (y :: ys) from rfl,
      intercalate_split "\n" _ _ (by simp)
        (stringifyItems_cons_ne_nil errors space p (i + 1) n d y ys)]
    simp [intercalate_single, String.append_assoc]

theorem stringifyEntriesL_text (errors : List ErrorObject) (space : Nat) :
    ∀ (p : String) (fields : List (String × Option Json)) (i n d : Nat),
      String.intercalate "\n" ((stringifyEntriesL errors space p i n d fields).map (lineText errors))
        = String.intercalate "\n" (stringifyEntries errors space p i n d fields)
  | _, [], _, _, _ => rfl
  | p, (k, none) :: rest, i, n, d => by
    simp only [stringifyEntriesL, stringifyEntries]
    exact stringifyEntriesL_text errors space p rest i n d
  | p, (k, some v) :: rest, i, n, d => by
    obtain ⟨init, c, hsh⟩ := stringifyL_shape errors space (p ++ "/" ++ k) v (d + 1)
    by_cases hr : stringifyEntriesL errors space p (i + 1) n d rest = []
    · have hr' : stringifyEntries errors space p (i + 1) n d rest = [] := by
        by_contra hx
        rcases hrc : countPresent rest with _ | m
        · exact hx (stringifyEntries_eq_nil_of_zero errors space p rest (i + 1) n d hrc)
        · exact absurd hr (stringifyEntriesL_ne_nil errors space p rest (i + 1) n d (by omega))
      simp only [stringifyEntriesL, stringifyEntries, hr, hr', List.append_nil]
      rw [hsh, entryLines_text, ← hsh, stringifyL_text errors space _ v (d + 1)]
      rfl
    · have hcp : countPresent rest ≠ 0 := by
        intro hz
        exact hr (stringifyEntriesL_eq_nil_of_zero errors space p rest (i + 1) n d hz)
      simp only [stringifyEntriesL, stringifyEntries, List.map_append]
      rw [intercalate_split "\n" _ _
          (by
            simp only [ne_eq, List.map_eq_nil_iff]
            exact entryLines_ne_nil _ _ _ _ (stringifyL_ne_nil errors space _ v (d + 1)))
          (by
            simp only [ne_eq, List.map_eq_nil_iff]
            exact hr),
        hsh, entryLines_text, ← hsh, stringifyL_text errors space _ v (d + 1),
        stringifyEntriesL_text errors space p rest (i + 1) n d]
      rw [show (indentStr space (d + 1) ++ quoteString k ++ ": "
              ++ stringify errors space (p ++ "/" ++ k) v (d + 1)
              ++ (if i < n - 1 then "," else "")
              ++ annotationFor errors (p ++ "/" ++ k))
            :: stringifyEntries errors space p (i + 1) n d rest
          = [indentStr space (d + 1) ++ quoteString k ++ ": "
              ++ stringify errors space (p ++ "/" ++ k) v (d + 1)
              ++ (if i < n - 1 then "," else "")
              ++ annotationFor errors (p ++ "/" ++ k)]
            ++ stringifyEntries errors space p (i + 1) n d rest from rfl,
        intercalate_split "\n" _ _ (by simp)
          (stringifyEntries_ne_nil errors space p rest (i + 1) n d hcp)]
      simp [intercalate_single, String.append_assoc]

end

/-! ### No printed line contains a newline (when no message does) -/

/-- Decimal digit predicate on characters. -/
def digit? (c : Char) : Bool := 48 ≤ c.toNat && c.toNat ≤ 57

theorem digitChar_digit (k : Nat) (h : k < 10) :
    digit? (Nat.digitChar k) = true := by
  interval_cases k <;> decide

theorem digit_ne_newline (c : Char) (h : digit? c = true) : c ≠ '\n' := by
  intro hc
  subst hc
  exact absurd h (by decide)

theorem digit_ne_minus (c : Char) (h : digit? c = true) : c ≠ '-' := by
  intro hc
  subst hc
  exact absurd h (by decide)

theorem natCharsAux_digits : ∀ (fuel n : Nat), ∀ c ∈ natCharsAux fuel n, digit? c = true
  | 0, _, c, hc => by simp [natCharsAux] at hc
  | fuel + 1, n, c, hc => by
    by_cases h : n < 10
    · simp only [natCharsAux, if_pos h, List.mem_singleton] at hc
      exact hc ▸ digitChar_digit n h
    · simp only [natCharsAux, if_neg h, List.mem_append, List.mem_singleton] at hc
      rcases hc with hc | hc
      · exact natCharsAux_digits fuel (n / 10) c hc
      · exact hc ▸ digitChar_digit (n % 10) (Nat.mod_lt _ (by omega))

theorem natChars_digits (n : Nat) : ∀ c ∈ natChars n, digit? c = true :=
  natCharsAux_digits (n + 1) n

theorem hexChar_ne_newline (k : Nat) (h : k < 16) : hexChar k ≠ '\n' := by
  interval_cases k <;> decide

theorem escapeChar_no_newline (c : Char) : '\n' ∉ escapeChar c := by
  unfold escapeChar
  split_ifs with h1 h2 h3 h4 h5 h6 h7 h8
  · decide
  · decide
  · decide
  · decide
  · decide
  · decide
  · decide
  · intro hm
    simp only [List.mem_cons, List.not_mem_nil, or_false] at hm
    rcases hm with hm | hm | hm | hm | hm | hm
    · exact absurd hm.symm (by decide)
    · exact absurd hm.symm (by decide)
    · exact absurd hm.symm (by decide)
    · exact absurd hm.symm (by decide)
    · exact absurd hm.symm (hexChar_ne_newline _ (by omega))
    · exact absurd hm.symm (hexChar_ne_newline _ (Nat.mod_lt _ (by omega)))
  · intro hm
    simp only [List.mem_singleton] at hm
    subst hm
    exact h8 (by decide)

theorem indentStr_no_newline (space d : Nat) : '\n' ∉ (indentStr space d).data := by
  intro h
  rw [show (indentStr space d).data = List.replicate (space * d) ' ' from rfl] at h
  have := List.eq_of_mem_replicate h
  exact absurd this (by decide)

theorem quoteString_no_newline (s : String) : '\n' ∉ (quoteString s).data := by
  intro h
  rw [show (quoteString s).data = '"' :: (s.data.flatMap escapeChar ++ ['"']) from by
    simp [quoteString, String.data_append]] at h
  simp only [List.mem_cons, List.mem_append, List.mem_singleton] at h
  rcases h with h | h | h
  · exact absurd h (by decide)
  · obtain ⟨c, _, hc⟩ := List.mem_flatMap.mp h
    exact escapeChar_no_newline c hc
  · exact absurd h (by decide)

theorem natLit_no_newline (n : Nat) : '\n' ∉ (natLit n).data := by
  intro h
  rw [show (natLit n).data = natChars n from rfl] at h
  exact absurd rfl (digit_ne_newline _ (natChars_digits n _ h))

theorem intLit_no_newline (n : Int) : '\n' ∉ (intLit n).data := by
  intro h
  unfold intLit at h
  split_ifs at h
  · rw [String.data_append] at h
    simp only [List.mem_append] at h
    rcases h with h | h
    · exact absurd h (by decide)
    · exact natLit_no_newline _ h
  · exact natLit_no_newline _ h

theorem intercalate_comma_no_newline :
    ∀ ms : List String, (∀ m ∈ ms, '\n' ∉ m.data) →
      '\n' ∉ (String.intercalate ", " ms).data
  | [], _ => by decide
  | [m], h => by
    rw [intercalate_single]
    exact h m (by simp)
  | m :: m' :: ms, h => by
    rw [intercalate_two]
    intro hm
    rw [String.data_append, String.data_append] at hm
    simp only [List.mem_append] at hm
    rcases hm with (hm | hm) | hm
    · exact h m (by simp) hm
    · exact absurd hm (by decide)
    · exact intercalate_comma_no_newline (m' :: ms) (fun x hx => h x (by simp [hx])) hm

theorem annotationFor_no_newline (errors : List ErrorObject)
    (hm : ∀ e ∈ errors, '\n' ∉ e.message.data) (q : String) :
    '\n' ∉ (annotationFor errors q).data := by
  rw [annotationFor_eq]
  split_ifs
  · decide
  · intro h
    rw [String.data_append] at h
    simp only [List.mem_append] at h
    rcases h with h | h
    · exact absurd h (by decide)
    · refine intercalate_comma_no_newline _ ?_ h
      intro m hmm
      obtain ⟨e, he, rfl⟩ := List.mem_map.mp hmm
      exact hm e (List.mem_of_mem_filter he)

theorem lineText_core_no_newline (errors : List ErrorObject) (l : Line)
    (h : '\n' ∉ (lineText errors l).data) : '\n' ∉ l.core.data := by
  intro hc
  apply h
  cases ht : l.tag with
  | none => simpa [lineText, ht] using hc
  | some q =>
    simp only [lineText, ht, String.data_append, List.mem_append]
    exact Or.inl hc

theorem tagLast_no_newline (errors : List ErrorObject) (sep path : String)
    (hsep : '\n' ∉ sep.data) (hann : ∀ q, '\n' ∉ (annotationFor errors q).data) :
    ∀ ls : List Line, (∀ l ∈ ls, '\n' ∉ (lineText errors l).data) →
      ∀ l ∈ tagLast sep path ls, '\n' ∉ (lineText errors l).data
  | [], _, l, hl => by simp [tagLast] at hl
  | [l0], h, l, hl => by
    simp only [tagLast, List.mem_singleton] at hl
    subst hl
    simp only [lineText, String.data_append, List.mem_append]
    rintro ((hc | hc) | hc)
    · exact lineText_core_no_newline errors l0 (h l0 (by simp)) hc
    · exact hsep hc
    · exact hann path hc
  | l0 :: l1 :: ls, h, l, hl => by
    rw [tagLast_cons sep path l0 (l1 :: ls) (by simp)] at hl
    rcases List.mem_cons.mp hl with rfl | hl
    · exact h l (by simp)
    · exact tagLast_no_newline errors sep path hsep hann (l1 :: ls)
        (fun x hx => h x (by simp [hx])) l hl

theorem entryLines_no_newline (errors : List ErrorObject) (pre sep path : String)
    (hpre : '\n' ∉ pre.data) (hsep : '\n' ∉ sep.data)
    (hann : ∀ q, '\n' ∉ (annotationFor errors q).data)
    (ls : List Line) (h : ∀ l ∈ ls, '\n' ∉ (lineText errors l).data) :
    ∀ l ∈ entryLines pre sep path ls, '\n' ∉ (lineText errors l).data := by
  intro l hl
  cases ls with
  | nil => simp [entryLines] at hl
  | cons l0 ls' =>
    cases ls' with
    | nil =>
      simp only [entryLines, List.mem_singleton] at hl
      subst hl
      simp only [lineText, String.data_append, List.mem_append]
      rintro (((hc | hc) | hc) | hc)
      · exact hpre hc
      · exact lineText_core_no_newline errors l0 (h l0 (by simp)) hc
      · exact hsep hc
      · exact hann path hc
    | cons l1 ls'' =>
      rw [entryLines_cons pre sep path l0 (l1 :: ls'') (by simp)] at hl
      rcases List.mem_cons.mp hl with rfl | hl'
      · rw [lineText_mk_head]
        intro hc
        rw [String.data_append] at hc
        rcases List.mem_append.mp hc with hc | hc
        · exact hpre hc
        · have h2 : lineText errors ⟨l0.core, l0.tag⟩ = lineText errors l0 := rfl
          rw [h2] at hc
          exact h l0 (by simp) hc
      · exact tagLast_no_newline errors sep path hsep hann (l1 :: ls'')
          (fun x hx => h x (by simp [hx])) l hl'

mutual

theorem stringifyL_no_newline (errors : List ErrorObject) (space : Nat)
    (hm : ∀ e ∈ errors, '\n' ∉ e.message.data) :
    ∀ (p : String) (v : Json) (d : Nat),
      ∀ l ∈ stringifyL errors space p v d, '\n' ∉ (lineText errors l).data
  | _, .null, _, l, hl => by
    simp only [stringifyL, List.mem_singleton] at hl
    subst hl
    show '\n' ∉ ("null" : String).data
    decide
  | _, .bool true, _, l, hl => by
    simp only [stringifyL, List.mem_singleton] at hl
    subst hl
    show '\n' ∉ ("true" : String).data
    decide
  | _, .bool false, _, l, hl => by
    simp only [stringifyL, List.mem_singleton] at hl
    subst hl
    show '\n' ∉ ("false" : String).data
    decide
  | _, .num n, _, l, hl => by
    simp only [stringifyL, List.mem_singleton] at hl
    subst hl
    exact intLit_no_newline n
  | _, .str s, _, l, hl => by
    simp only [stringifyL, List.mem_singleton] at hl
    subst hl
    exact quoteString_no_newline s
  | _, .arr [], _, l, hl => by
    simp only [stringifyL, List.mem_singleton] at hl
    subst hl
    show '\n' ∉ ("[]" : String).data
    decide
  | p, .arr (x :: xs), d, l, hl => by
    rw [show stringifyL errors space p (.arr (x :: xs)) d
        = ⟨"[", none⟩ :: (stringifyItemsL errors space p 0 (xs.length + 1) d (x :: xs)
            ++ [⟨indentStr space d ++ "]", none⟩]) from rfl] at hl
    rcases List.mem_cons.mp hl with rfl | hl
    · show '\n' ∉ ("[" : String).data
      decide
    · rcases List.mem_append.mp hl with hl | hl
      · exact stringifyItemsL_no_newline errors space hm p 0 (xs.length + 1) d (x :: xs) l hl
      · rw [List.mem_singleton.mp hl]
        intro hc
        rw [show lineText errors ⟨indentStr space d ++ "]", none⟩
            = indentStr space d ++ "]" from rfl, String.data_append] at hc
        rcases List.mem_append.mp hc with hc | hc
        · exact indentStr_no_newline space d hc
        · exact absurd hc (by decide)
  | p, .obj fields, d, l, hl => by
    by_cases h0 : countPresent fields = 0
    · simp only [stringifyL, if_pos h0, List.mem_singleton] at hl
      subst hl
      show '\n' ∉ ("\x7b\x7d" : String).data
      decide
    · simp only [stringifyL, if_neg h0] at hl
      rcases List.mem_cons.mp hl with rfl | hl
      · show '\n' ∉ ("\x7b" : String).data
        decide
      · rcases List.mem_append.mp hl with hl | hl
        · exact stringifyEntriesL_no_newline errors space hm p 0 (countPresent fields) d
            fields l hl
        · rw [List.mem_singleton.mp hl]
          intro hc
          rw [show lineText errors ⟨indentStr space d ++ "\x7d", none⟩
              = indentStr space d ++ "\x7d" from rfl, String.data_append] at hc
          rcases List.mem_append.mp hc with hc | hc
          · exact indentStr_no_newline space d hc
          · exact absurd hc (by decide)

theorem stringifyItemsL_no_newline (errors : List ErrorObject) (space : Nat)
    (hm : ∀ e ∈ errors, '\n' ∉ e.message.data) :
    ∀ (p : String) (i n d : Nat) (xs : List Json),
      ∀ l ∈ stringifyItemsL errors space p i n d xs, '\n' ∉ (lineText errors l).data
  | _, _, _, _, [], l, hl => by simp [stringifyItemsL] at hl
  | p, i, n, d, x :: xs, l, hl => by
    rw [show stringifyItemsL errors space p i n d (x :: xs)
        = entryLines (indentStr space (d + 1)) (if i < n - 1 then "," else "")
            (p ++ "/" ++ natLit i)
            (stringifyL errors space (p ++ "/" ++ natLit i) x (d + 1))
          ++ stringifyItemsL errors space p (i + 1) n d xs from rfl] at hl
    rcases List.mem_append.mp hl with hl | hl
    · refine entryLines_no_newline errors _ _ _ (indentStr_no_newline space (d + 1)) ?_
        (annotationFor_no_newline errors hm) _ ?_ l hl
      · split_ifs <;> decide
      · exact stringifyL_no_newline errors space hm (p ++ "/" ++ natLit i) x (d + 1)
    · exact stringifyItemsL_no_newline errors space hm p (i + 1) n d xs l hl

theorem stringifyEntriesL_no_newline (errors : List ErrorObject) (space : Nat)
    (hm : ∀ e ∈ errors, '\n' ∉ e.message.data) :
    ∀ (p : String) (i n d : Nat) (fields : List (String × Option Json)),
      ∀ l ∈ stringifyEntriesL errors space p i n d fields, '\n' ∉ (lineText errors l).data
  | _, _, _, _, [], l, hl => by simp [stringifyEntriesL] at hl
  | p, i, n, d, (k, none) :: rest, l, hl => by
    rw [show stringifyEntriesL errors space p i n d ((k, none) :: rest)
        = stringifyEntriesL errors space p i n d rest from rfl] at hl
    exact stringifyEntriesL_no_newline errors space hm p i n d rest l hl
  | p, i, n, d, (k, some v) :: rest, l, hl => by
    rw [show stringifyEntriesL errors space p i n d ((k, some v) :: rest)
        = entryLines (indentStr space (d + 1) ++ quoteString k ++ ": ")
            (if i < n - 1 then "," else "") (p ++ "/" ++ k)
            (stringifyL errors space (p ++ "/" ++ k) v (d + 1))
          ++ stringifyEntriesL errors space p (i + 1) n d rest from rfl] at hl
    rcases List.mem_append.mp hl with hl | hl
    · refine entryLines_no_newline errors _ _ _ ?_ ?_
        (annotationFor_no_newline errors hm) _ ?_ l hl
      · intro hc
        rw [String.data_append, String.data_append] at hc
        rcases List.mem_append.mp hc with hc | hc
        · rcases List.mem_append.mp hc with hc | hc
          · exact indentStr_no_newline space (d + 1) hc
          · exact quoteString_no_newline k hc
        · exact absurd hc (by decide)
      · split_ifs <;> decide
      · exact stringifyL_no_newline errors space hm (p ++ "/" ++ k) v (d + 1)
    · exact stringifyEntriesL_no_newline errors space hm p (i + 1) n d rest l hl

end

/-! ## Claim C2 -/

/-- C2 (counterexample): with an error whose instancePath is the root
path (the empty string, as ajv produces for root-level failures), the
root's printed line carries no annotation: at value `5` the whole output
is the single line `5`, which does not end in ` // boom`. -/
theorem claim2_counterexample :
    myStringifyWithErrors (.num 5) [⟨"", "boom"⟩] 2 = "5" ∧
    annotationFor [⟨"", "boom"⟩] "" = " // boom" ∧
    (" // boom".data).isSuffixOf ("5".data) = false := by
  decide

/-- C2 (amended): the output is exactly the instrumented lines joined by
newlines; provided no message contains a newline, each printed line is
newline-free (so the line decomposition is faithful); each line's text is
its core followed by the annotation of its tagged path (so lines tagged
with no matching error carry no annotation, and non-root lines tagged
with a path carry exactly its annotation at the end); and the annotation
of any path concatenates, in encounter order, exactly the messages of the
errors whose instancePath equals that path by exact string equality
(errors at the root path are never attached to any line, see the
counterexample). -/
theorem claim2_amended (errors : List ErrorObject) (space : Nat) (v : Json)
    (hm : ∀ e ∈ errors, '\n' ∉ e.message.data)
    (l : Line) (hl : l ∈ stringifyL errors space "" v 0) (q : String) :
    myStringifyWithErrors v errors space
      = String.intercalate "\n" ((stringifyL errors space "" v 0).map (lineText errors)) ∧
    '\n' ∉ (lineText errors l).data ∧
    lineText errors l = l.core ++ l.tag.elim "" (annotationFor errors) ∧
    annotationFor errors q
      = (if errors.filter (fun e => e.instancePath == q) = [] then ""
         else " // " ++ String.intercalate ", "
              ((errors.filter (fun e => e.instancePath == q)).map (·.message))) := by
  refine ⟨(stringifyL_text errors space "" v 0).symm,
    stringifyL_no_newline errors space hm "" v 0 l hl, ?_, annotationFor_eq errors q⟩
  cases ht : l.tag with
  | none => simp [lineText, ht]
  | some P => simp [lineText, ht]

/-- C2 (witness): the amended claim at a concrete input with two errors
sharing the path `/0`: the annotated line carries both messages,
concatenated in encounter order. -/
theorem claim2_witness :
    myStringifyWithErrors (.arr [.null, .null]) [⟨"/0", "dup1"⟩, ⟨"/0", "dup2"⟩] 2
      = String.intercalate "\n"
          ((stringifyL [⟨"/0", "dup1"⟩, ⟨"/0", "dup2"⟩] 2 "" (.arr [.null, .null]) 0).map
            (lineText [⟨"/0", "dup1"⟩, ⟨"/0", "dup2"⟩])) ∧
    '\n' ∉ (lineText [⟨"/0", "dup1"⟩, ⟨"/0", "dup2"⟩] (Line.mk "  null," (some "/0"))).data ∧
    lineText [⟨"/0", "dup1"⟩, ⟨"/0", "dup2"⟩] (Line.mk "  null," (some "/0"))
      = (Line.mk "  null," (some "/0")).core
        ++ ((Line.mk "  null," (some "/0")).tag.elim ""
            (annotationFor [⟨"/0", "dup1"⟩, ⟨"/0", "dup2"⟩])) ∧
    annotationFor [⟨"/0", "dup1"⟩, ⟨"/0", "dup2"⟩] "/0"
      = (if ([⟨"/0", "dup1"⟩, ⟨"/0", "dup2"⟩] : List ErrorObject).filter
            (fun e => e.instancePath == "/0") = [] then ""
         else " // " ++ String.intercalate ", "
              ((([⟨"/0", "dup1"⟩, ⟨"/0", "dup2"⟩] : List ErrorObject).filter
                  (fun e => e.instancePath == "/0")).map (·.message))) :=
  claim2_amended [⟨"/0", "dup1"⟩, ⟨"/0", "dup2"⟩] 2 (.arr [.null, .null]) (by decide)
    (Line.mk "  null," (some "/0")) (by decide) "/0"

/-! ## Claims C9 and C5 -/

/-- C9 (confirmed): mapping entries with an explicitly absent value are
skipped entirely: erasing them from the input changes nothing in the
output (so they are not printed as `null` and not printed at all, and
they do not shift the trailing-comma placement), the entries walker drops
them without emitting a line, and the last printed entry of a mapping
carries no comma separator. -/
theorem claim9_absent_entries_skipped (value : Json) (errors : List ErrorObject)
    (space : Nat) (p : String) (i n depth : Nat) (k : String) (v : Json)
    (rest : List (String × Option Json)) (hlast : n ≤ i + 1) :
    myStringifyWithErrors value errors space
      = myStringifyWithErrors (eraseAbsent value) errors space ∧
    stringifyEntries errors space p i n depth ((k, none) :: rest)
      = stringifyEntries errors space p i n depth rest ∧
    stringifyEntries errors space p i n depth [(k, some v)]
      = [indentStr space (depth + 1) ++ quoteString k ++ ": "
          ++ stringify errors space (p ++ "/" ++ k) v (depth + 1)
          ++ annotationFor errors (p ++ "/" ++ k)] := by
  refine ⟨(stringify_erase errors space "" value 0).symm, rfl, ?_⟩
  simp [stringifyEntries, show ¬ i < n - 1 by omega]

/-- C9 (witness): the skipping claims applied at a concrete input. -/
theorem claim9_witness :
    myStringifyWithErrors (.obj [("b", none)]) [] 2
      = myStringifyWithErrors (eraseAbsent (.obj [("b", none)])) [] 2 ∧
    stringifyEntries [] 2 "" 0 1 0 [("x", none)] = stringifyEntries [] 2 "" 0 1 0 [] ∧
    stringifyEntries [] 2 "" 0 1 0 [("x", some .null)]
      = [indentStr 2 1 ++ quoteString "x" ++ ": "
          ++ stringify [] 2 ("" ++ "/" ++ "x") .null 1
          ++ annotationFor [] ("" ++ "/" ++ "x")] :=
  claim9_absent_entries_skipped (.obj [("b", none)]) [] 2 "" 0 1 0 "x" .null [] (by decide)

/-- C5 (counterexample): an empty sequence at path `/a` with an error at
`/a` renders as `[]` but its printed line does carry the annotation
(appended by the enclosing mapping), contradicting the claim that such a
line carries no annotation. -/
theorem claim5_counterexample :
    stringify [⟨"/a", "boom"⟩] 2 "/a" (.arr []) 1 = "[]" ∧
    myStringifyWithErrors (.obj [("a", some (.arr []))]) [⟨"/a", "boom"⟩] 2
      = "\x7b\n  \"a\": [] // boom\n\x7d" ∧
    ((splitLines (myStringifyWithErrors (.obj [("a", some (.arr []))])
        [⟨"/a", "boom"⟩] 2).data).any
      (fun l => (" // boom".data).isSuffixOf l)) = true := by
  decide

/-- C5 (amended): an empty sequence renders as `[]` and a mapping whose
entries are all absent renders as `{}`, each a single line, independently
of the error list; but an error whose instance path equals a non-root
empty container's path is annotated on that container's line by the
enclosing container. -/
theorem claim5_amended (errors : List ErrorObject) (space : Nat) (p : String) (d : Nat)
    (fields : List (String × Option Json)) (hf : countPresent fields = 0)
    (k : String) (rest : List (String × Option Json)) (i n depth : Nat) :
    stringify errors space p (.arr []) d = "[]" ∧
    stringify errors space p (.obj fields) d = "\x7b\x7d" ∧
    splitLines ("[]".data) = ["[]".data] ∧
    splitLines ("\x7b\x7d".data) = ["\x7b\x7d".data] ∧
    stringifyEntries errors space p i n depth ((k, some (.arr [])) :: rest)
      = (indentStr space (depth + 1) ++ quoteString k ++ ": "
          ++ "[]"
          ++ (if i < n - 1 then "," else "")
          ++ annotationFor errors (p ++ "/" ++ k))
        :: stringifyEntries errors space p (i + 1) n depth rest := by
  refine ⟨rfl, ?_, by decide, by decide, rfl⟩
  simp [stringify, hf]

/-- C5 (witness): the amended claim applied at a concrete input. -/
theorem claim5_witness :
    stringify [⟨"/a", "boom"⟩] 2 "" (.arr []) 0 = "[]" ∧
    stringify [⟨"/a", "boom"⟩] 2 "" (.obj [("z", none)]) 0 = "\x7b\x7d" ∧
    splitLines ("[]".data) = ["[]".data] ∧
    splitLines ("\x7b\x7d".data) = ["\x7b\x7d".data] ∧
    stringifyEntries [⟨"/a", "boom"⟩] 2 "" 0 1 0 [("a", some (.arr []))]
      = (indentStr 2 1 ++ quoteString "a" ++ ": "
          ++ "[]"
          ++ (if 0 < 1 - 1 then "," else "")
          ++ annotationFor [⟨"/a", "boom"⟩] ("" ++ "/" ++ "a"))
        :: stringifyEntries [⟨"/a", "boom"⟩] 2 "" 1 1 0 [] :=
  claim5_amended [⟨"/a", "boom"⟩] 2 "" 0 [("z", none)] (by decide) "a" [] 0 1 0

/-! ## A standard JSON parser (for the round-trip claim C3)

A whitespace-insensitive recursive-descent JSON parser over character
lists, covering the grammar the serializer emits (with integer numbers,
matching the model).  Recursion is on a fuel counter; `parseJson` supplies
one more unit of fuel than the input length, which the round-trip proof
shows is always enough. -/

def isWsChar (c : Char) : Bool := c == ' ' || c == '\n' || c == '\t' || c == '\r'

def dropWs : List Char → List Char
  | [] => []
  | c :: rest => if isWsChar c then dropWs rest else c :: rest

def grabDigits : List Char → List Char × List Char
  | [] => ([], [])
  | c :: rest =>
    if digit? c then
      match grabDigits rest with
      | (ds, r) => (c :: ds, r)
    else ([], c :: rest)

def digitsToNat (ds : List Char) : Nat :=
  ds.foldl (fun a c => a * 10 + (c.toNat - 48)) 0

def hexVal? (c : Char) : Option Nat :=
  if 48 ≤ c.toNat ∧ c.toNat ≤ 57 then some (c.toNat - 48)
  else if 97 ≤ c.toNat ∧ c.toNat ≤ 102 then some (c.toNat - 87)
  else if 65 ≤ c.toNat ∧ c.toNat ≤ 70 then some (c.toNat - 55)
  else none

def escDecode (e : Char) : Option Char :=
  if e = '"' then some '"'
  else if e = '\\' then some '\\'
  else if e = '/' then some '/'
  else if e = 'n' then some '\n'
  else if e = 'r' then some '\r'
  else if e = 't' then some '\t'
  else if e = 'b' then some (Char.ofNat 8)
  else if e = 'f' then some (Char.ofNat 12)
  else none

/-- Parse a string body after the opening quote: the decoded characters
and the remainder after the closing quote. -/
def strBody : List Char → Option (List Char × List Char)
  | [] => none
  | '"' :: rest => some ([], rest)
  | '\\' :: 'u' :: h1 :: h2 :: h3 :: h4 :: rest =>
    match hexVal? h1, hexVal? h2, hexVal? h3, hexVal? h4 with
    | some a, some b, some c, some d =>
      match strBody rest with
      | some (cs, r) => some (Char.ofNat (((a * 16 + b) * 16 + c) * 16 + d) :: cs, r)
      | none => none
    | _, _, _, _ => none
  | '\\' :: e :: rest =>
    match escDecode e with
    | some ch =>
      match strBody rest with
      | some (cs, r) => some (ch :: cs, r)
      | none => none
    | none => none
  | c :: rest =>
    match strBody rest with
    | some (cs, r) => some (c :: cs, r)
    | none => none

mutual

def parseVal : Nat → List Char → Option (Json × List Char)
  | 0, _ => none
  | fuel + 1, input =>
    match dropWs input with
    | 'n' :: 'u' :: 'l' :: 'l' :: r => some (.null, r)
    | 't' :: 'r' :: 'u' :: 'e' :: r => some (.bool true, r)
    | 'f' :: 'a' :: 'l' :: 's' :: 'e' :: r => some (.bool false, r)
    | '"' :: r =>
      match strBody r with
      | some (cs, rest) => some (.str (String.mk cs), rest)
      | none => none
    | '[' :: r =>
      match dropWs r with
      | ']' :: rest => some (.arr [], rest)
      | other =>
        match parseItems fuel other with
        | some (xs, rest) => some (.arr xs, rest)
        | none => none
    | '{' :: r =>
      match dropWs r with
      | '}' :: rest => some (.obj [], rest)
      | other =>
        match parseMembers fuel other with
        | some (fields, rest) => some (.obj fields, rest)
        | none => none
    | '-' :: r =>
      match grabDigits r with
      | ([], _) => none
      | (ds, rest) => some (.num (-(digitsToNat ds : Int)), rest)
    | c :: r =>
      if digit? c then
        match grabDigits (c :: r) with
        | (ds, rest) => some (.num ((digitsToNat ds : Int)), rest)
      else none
    | [] => none

def parseItems : Nat → List Char → Option (List Json × List Char)
  | 0, _ => none
  | fuel + 1, input =>
    match parseVal fuel input with
    | none => none
    | some (v, r) =>
      match dropWs r with
      | ',' :: r2 =>
        match parseItems fuel r2 with
        | some (xs, rest) => some (v :: xs, rest)
        | none => none
      | ']' :: r2 => some ([v], r2)
      | _ => none

def parseMembers : Nat → List Char → Option (List (String × Option Json) × List Char)
  | 0, _ => none
  | fuel + 1, input =>
    match dropWs input with
    | '"' :: r =>
      match strBody r with
      | none => none
      | some (kcs, r1) =>
        match dropWs r1 with
        | ':' :: r2 =>
          match parseVal fuel r2 with
          | none => none
          | some (v, r3) =>
            match dropWs r3 with
            | ',' :: r4 =>
              match parseMembers fuel r4 with
              | some (fields, rest) => some ((String.mk kcs, some v) :: fields, rest)
              | none => none
            | '}' :: r4 => some ([(String.mk kcs, some v)], r4)
            | _ => none
        | _ => none
    | _ => none

end

/-- Parse a complete JSON document (any trailing whitespace allowed). -/
def parseJson (s : String) : Option Json :=
  match parseVal (s.data.length + 1) s.data with
  | some (v, rest) => if dropWs rest = [] then some v else none
  | none => none

/-! ### A size measure bounding the fuel the parser needs -/

mutual

def jsize : Json → Nat
  | .null => 1
  | .bool _ => 1
  | .num _ => 1
  | .str _ => 1
  | .arr xs => 1 + jsizeList xs
  | .obj fields => 1 + jsizeFields fields

def jsizeList : List Json → Nat
  | [] => 0
  | x :: xs => 1 + jsize x + jsizeList xs

def jsizeFields : List (String × Option Json) → Nat
  | [] => 0
  | (_, none) :: rest => jsizeFields rest
  | (_, some v) :: rest => 1 + jsize v + jsizeFields rest

end

/-! ### Whitespace facts -/

theorem dropWs_not_ws (c : Char) (t : List Char) (h : isWsChar c = false) :
    dropWs (c :: t) = c :: t := by
  simp [dropWs, h]

theorem dropWs_cons_ws (c : Char) (t : List Char) (h : isWsChar c = true) :
    dropWs (c :: t) = dropWs t := by
  simp [dropWs, h]

theorem dropWs_spaces : ∀ (k : Nat) (l : List Char),
    dropWs (List.replicate k ' ' ++ l) = dropWs l
  | 0, l => rfl
  | k + 1, l => by
    rw [List.replicate_succ, List.cons_append, dropWs_cons_ws ' ' _ (by decide)]
    exact dropWs_spaces k l

theorem dropWs_indent (space d : Nat) (l : List Char) :
    dropWs ((indentStr space d).data ++ l) = dropWs l := by
  rw [show (indentStr space d).data = List.replicate (space * d) ' ' from rfl]
  exact dropWs_spaces (space * d) l

theorem digit_not_ws (c : Char) (h : digit? c = true) : isWsChar c = false := by
  unfold isWsChar
  simp only [Bool.or_eq_false_iff, beq_eq_false_iff_ne, ne_eq]
  refine ⟨⟨⟨?_, ?_⟩, ?_⟩, ?_⟩ <;> (intro hc; subst hc; exact absurd h (by decide))

/-! ### Decimal round-trip -/

theorem natCharsAux_stable : ∀ (f g n : Nat), n < f → n < g →
    natCharsAux f n = natCharsAux g n
  | 0, _, n, hf, _ => absurd hf (Nat.not_lt_zero n)
  | _ + 1, 0, n, _, hg => absurd hg (Nat.not_lt_zero n)
  | f + 1, g + 1, n, hf, hg => by
    by_cases h : n < 10
    · simp [natCharsAux, h]
    · simp only [natCharsAux, if_neg h]
      rw [natCharsAux_stable f g (n / 10) (by omega) (by omega)]

theorem natChars_unfold (n : Nat) :
    natChars n = if n < 10 then [Nat.digitChar n]
      else natChars (n / 10) ++ [Nat.digitChar (n % 10)] := by
  show natCharsAux (n + 1) n = _
  rw [show natCharsAux (n + 1) n
      = if n < 10 then [Nat.digitChar n]
        else natCharsAux n (n / 10) ++ [Nat.digitChar (n % 10)] from rfl]
  by_cases h : n < 10
  · rw [if_pos h, if_pos h]
  · rw [if_neg h, if_neg h,
      natCharsAux_stable n (n / 10 + 1) (n / 10) (by omega) (by omega)]
    rfl

theorem digitChar_toNat (k : Nat) (h : k < 10) : (Nat.digitChar k).toNat = 48 + k := by
  interval_cases k <;> decide

theorem digitsToNat_append_digit (A : List Char) (c : Char) :
    digitsToNat (A ++ [c]) = digitsToNat A * 10 + (c.toNat - 48) := by
  unfold digitsToNat
  rw [List.foldl_append]
  rfl

theorem digitsToNat_natChars (n : Nat) : digitsToNat (natChars n) = n := by
  induction n using Nat.strong_induction_on with
  | _ n ih =>
    rw [natChars_unfold]
    by_cases h : n < 10
    · rw [if_pos h]
      show digitsToNat [Nat.digitChar n] = n
      unfold digitsToNat
      simp [digitChar_toNat n h]
    · rw [if_neg h, digitsToNat_append_digit, ih (n / 10) (by omega),
        digitChar_toNat (n % 10) (Nat.mod_lt _ (by omega))]
      omega

theorem natChars_cons (n : Nat) : ∃ c t, natChars n = c :: t ∧ digit? c = true := by
  rw [natChars_unfold]
  by_cases h : n < 10
  · exact ⟨Nat.digitChar n, [], by simp [h], digitChar_digit n h⟩
  · obtain ⟨c, t, hct, hc⟩ := natChars_cons (n / 10)
    refine ⟨c, t ++ [Nat.digitChar (n % 10)], ?_, hc⟩
    simp [h, hct]
termination_by n
decreasing_by omega

/-- A remainder whose head cannot extend a digit run. -/
def numStop : List Char → Bool
  | [] => true
  | c :: _ => !(digit? c)

theorem grabDigits_stop (l : List Char) (h : numStop l = true) : grabDigits l = ([], l) := by
  cases l with
  | nil => rfl
  | cons c t =>
    simp only [numStop, Bool.not_eq_true'] at h
    simp [grabDigits, h]

theorem grabDigits_run : ∀ (ds : List Char), (∀ c ∈ ds, digit? c = true) →
    ∀ (l : List Char), numStop l = true → grabDigits (ds ++ l) = (ds, l)
  | [], _, l, hl => by simpa using grabDigits_stop l hl
  | c :: ds, h, l, hl => by
    rw [List.cons_append]
    simp [grabDigits, h c (by simp),
      grabDigits_run ds (fun x hx => h x (by simp [hx])) l hl]

/-! ### String-body round-trip -/

theorem hexVal_hexChar (k : Nat) (h : k < 16) : hexVal? (hexChar k) = some k := by
  interval_cases k <;> decide

theorem strBody_escape (c : Char) (l : List Char) :
    strBody (escapeChar c ++ l)
      = match strBody l with
        | some (cs, r) => some (c :: cs, r)
        | none => none := by
  unfold escapeChar
  split_ifs with h1 h2 h3 h4 h5 h6 h7 h8
  · subst h1
    rfl
  · subst h2
    rfl
  · subst h3
    rfl
  · subst h4
    rfl
  · subst h5
    rfl
  · rw [h6]
    rfl
  · rw [h7]
    rfl
  · have harith : ((0 * 16 + 0) * 16 + c.toNat / 16) * 16 + c.toNat % 16 = c.toNat := by
      omega
    simp only [List.cons_append, List.nil_append]
    rw [show strBody ('\\' :: 'u' :: '0' :: '0'
          :: hexChar (c.toNat / 16) :: hexChar (c.toNat % 16) :: l)
        = match hexVal? '0', hexVal? '0', hexVal? (hexChar (c.toNat / 16)),
            hexVal? (hexChar (c.toNat % 16)) with
          | some a, some b, some c', some d =>
            match strBody l with
            | some (cs, r) => some (Char.ofNat (((a * 16 + b) * 16 + c') * 16 + d) :: cs, r)
            | none => none
          | _, _, _, _ => none from rfl,
      hexVal_hexChar (c.toNat / 16) (by omega),
      hexVal_hexChar (c.toNat % 16) (Nat.mod_lt _ (by omega))]
    show (match strBody l with
      | some (cs, r) => some (Char.ofNat (((0 * 16 + 0) * 16 + c.toNat / 16) * 16
          + c.toNat % 16) :: cs, r)
      | none => none) = _
    rw [harith, Char.ofNat_toNat]
  · simp only [List.cons_append, List.nil_append]
    rw [strBody.eq_def]
    split
    · rename_i heq
      exact absurd heq (List.cons_ne_nil c l)
    · rename_i heq
      exact absurd (List.cons.inj heq).1 h1
    · rename_i heq
      exact absurd (List.cons.inj heq).1 h2
    · rename_i heq
      exact absurd (List.cons.inj heq).1 h2
    · rename_i heq
      obtain ⟨hc, hl⟩ := List.cons.inj heq
      subst hc
      subst hl
      rfl

theorem strBody_flatMap : ∀ (cs : List Char) (rest : List Char),
    strBody (cs.flatMap escapeChar ++ '"' :: rest) = some (cs, rest)
  | [], rest => rfl
  | c :: cs, rest => by
    rw [List.flatMap_cons, List.append_assoc, strBody_escape,
      strBody_flatMap cs rest]

/-! ### The parsers ignore leading whitespace -/

theorem dropWs_idem : ∀ l : List Char, dropWs (dropWs l) = dropWs l
  | [] => rfl
  | c :: t => by
    by_cases h : isWsChar c = true
    · rw [dropWs_cons_ws c t h]
      exact dropWs_idem t
    · rw [dropWs_not_ws c t (by simpa using h), dropWs_not_ws c t (by simpa using h)]

theorem parseVal_cons_ws (f : Nat) (c : Char) (h : isWsChar c = true) (l : List Char) :
    parseVal f (c :: l) = parseVal f l := by
  cases f with
  | zero => rfl
  | succ f =>
    simp only [parseVal]
    rw [dropWs_cons_ws c l h]

theorem parseVal_spaces (f : Nat) : ∀ (k : Nat) (l : List Char),
    parseVal f (List.replicate k ' ' ++ l) = parseVal f l
  | 0, l => rfl
  | k + 1, l => by
    rw [List.replicate_succ, List.cons_append, parseVal_cons_ws f ' ' (by decide)]
    exact parseVal_spaces f k l

theorem parseVal_dropWs (f : Nat) (l : List Char) :
    parseVal f (dropWs l) = parseVal f l := by
  cases f with
  | zero => rfl
  | succ f =>
    simp only [parseVal]
    rw [dropWs_idem l]

theorem parseItems_cons_ws (f : Nat) (c : Char) (h : isWsChar c = true) (l : List Char) :
    parseItems f (c :: l) = parseItems f l := by
  cases f with
  | zero => rfl
  | succ f =>
    simp only [parseItems]
    rw [parseVal_cons_ws f c h l]

theorem parseItems_dropWs (f : Nat) (l : List Char) :
    parseItems f (dropWs l) = parseItems f l := by
  cases f with
  | zero => rfl
  | succ f =>
    simp only [parseItems]
    rw [parseVal_dropWs f l]

theorem parseMembers_cons_ws (f : Nat) (c : Char) (h : isWsChar c = true) (l : List Char) :
    parseMembers f (c :: l) = parseMembers f l := by
  cases f with
  | zero => rfl
  | succ f =>
    simp only [parseMembers]
    rw [dropWs_cons_ws c l h]

theorem parseMembers_dropWs (f : Nat) (l : List Char) :
    parseMembers f (dropWs l) = parseMembers f l := by
  cases f with
  | zero => rfl
  | succ f =>
    simp only [parseMembers]
    rw [dropWs_idem l]

/-! ### One-step reductions of `parseVal` on each kind of head -/

theorem parseVal_quote (f : Nat) (r : List Char) :
    parseVal (f + 1) ('"' :: r)
      = match strBody r with
        | some (cs, rest) => some (.str (String.mk cs), rest)
        | none => none := by
  simp only [parseVal]
  rw [dropWs_not_ws '"' r (by decide)]
  rfl

theorem parseVal_lbrack (f : Nat) (r : List Char) :
    parseVal (f + 1) ('[' :: r)
      = match dropWs r with
        | ']' :: rest => some (.arr [], rest)
        | other =>
          match parseItems f other with
          | some (xs, rest) => some (.arr xs, rest)
          | none => none := by
  simp only [parseVal]
  rw [dropWs_not_ws '[' r (by decide)]
  rfl

theorem parseVal_lbrace (f : Nat) (r : List Char) :
    parseVal (f + 1) ('{' :: r)
      = match dropWs r with
        | '}' :: rest => some (.obj [], rest)
        | other =>
          match parseMembers f other with
          | some (fields, rest) => some (.obj fields, rest)
          | none => none := by
  simp only [parseVal]
  rw [dropWs_not_ws '{' r (by decide)]
  rfl

theorem parseVal_minus (f : Nat) (r : List Char) :
    parseVal (f + 1) ('-' :: r)
      = match grabDigits r with
        | ([], _) => none
        | (ds, rest) => some (.num (-(digitsToNat ds : Int)), rest) := by
  simp only [parseVal]
  rw [dropWs_not_ws '-' r (by decide)]
  rfl

theorem digit_ne_keyword (c : Char) (h : digit? c = true) :
    c ≠ 'n' ∧ c ≠ 't' ∧ c ≠ 'f' ∧ c ≠ '"' ∧ c ≠ '[' ∧ c ≠ '{' ∧ c ≠ '-'
      ∧ c ≠ ']' ∧ c ≠ '}' := by
  refine ⟨?_, ?_, ?_, ?_, ?_, ?_, ?_, ?_, ?_⟩ <;>
    (intro hc; subst hc; exact absurd h (by decide))

theorem parseVal_digit_head (f : Nat) (c : Char) (t : List Char) (h : digit? c = true) :
    parseVal (f + 1) (c :: t)
      = some (.num ((digitsToNat (grabDigits (c :: t)).1 : Int)),
          (grabDigits (c :: t)).2) := by
  obtain ⟨hn, ht, hf, hq, hb, hr, hm, _, _⟩ := digit_ne_keyword c h
  simp only [parseVal]
  rw [dropWs_not_ws c t (digit_not_ws c h)]
  split
  · rename_i heq
    exact absurd (List.cons.inj heq).1 hn
  · rename_i heq
    exact absurd (List.cons.inj heq).1 ht
  · rename_i heq
    exact absurd (List.cons.inj heq).1 hf
  · rename_i heq
    exact absurd (List.cons.inj heq).1 hq
  · rename_i heq
    exact absurd (List.cons.inj heq).1 hb
  · rename_i heq
    exact absurd (List.cons.inj heq).1 hr
  · rename_i heq
    exact absurd (List.cons.inj heq).1 hm
  · rename_i heq
    obtain ⟨hc, hl⟩ := List.cons.inj heq
    subst hc
    subst hl
    rw [if_pos h]
  · rename_i heq
    exact absurd heq (List.cons_ne_nil c t)

/-! ### Small facts feeding the round-trip -/

theorem annotationFor_nil (path : String) : annotationFor [] path = "" := rfl

theorem jsizeFields_zero : ∀ fields : List (String × Option Json),
    countPresent fields = 0 → jsizeFields fields = 0
  | [], _ => rfl
  | (k, none) :: rest, h => by
    have hr : countPresent rest = 0 := by
      simpa [countPresent, List.countP_cons] using h
    simpa [jsizeFields] using jsizeFields_zero rest hr
  | (k, some v) :: rest, h => by
    exact absurd h (by simp [countPresent, List.countP_cons])

theorem eraseAbsentFields_eq_nil : ∀ fields : List (String × Option Json),
    countPresent fields = 0 → eraseAbsentFields fields = []
  | [], _ => rfl
  | (k, none) :: rest, h => by
    have hr : countPresent rest = 0 := by
      simpa [countPresent, List.countP_cons] using h
    simpa [eraseAbsentFields] using eraseAbsentFields_eq_nil rest hr
  | (k, some v) :: rest, h => by
    exact absurd h (by simp [countPresent, List.countP_cons])

/-- Every serialized value starts with a non-whitespace character that is
neither `]` nor `}`. -/
theorem stringify_head (errors : List ErrorObject) (space : Nat) (p : String)
    (v : Json) (d : Nat) :
    ∃ c t, (stringify errors space p v d).data = c :: t
      ∧ isWsChar c = false ∧ c ≠ ']' ∧ c ≠ '}' := by
  cases v with
  | null => exact ⟨'n', ['u', 'l', 'l'], rfl, by decide, by decide, by decide⟩
  | bool b =>
    cases b with
    | false => exact ⟨'f', ['a', 'l', 's', 'e'], rfl, by decide, by decide, by decide⟩
    | true => exact ⟨'t', ['r', 'u', 'e'], rfl, by decide, by decide, by decide⟩
  | num n =>
    show ∃ c t, (intLit n).data = c :: t ∧ _
    by_cases h : n < 0
    · refine ⟨'-', natChars n.natAbs, ?_, by decide, by decide, by decide⟩
      rw [intLit, if_pos h, String.data_append]
      rfl
    · obtain ⟨c, t, hct, hc⟩ := natChars_cons n.natAbs
      obtain ⟨_, _, _, _, _, _, _, h1, h2⟩ := digit_ne_keyword c hc
      refine ⟨c, t, ?_, digit_not_ws c hc, h1, h2⟩
      rw [intLit, if_neg h]
      exact hct
  | str s =>
    refine ⟨'"', s.data.flatMap escapeChar ++ ['"'], ?_, by decide, by decide, by decide⟩
    show (quoteString s).data = _
    simp [quoteString, String.data_append]
  | arr xs =>
    cases xs with
    | nil => exact ⟨'[', [']'], rfl, by decide, by decide, by decide⟩
    | cons x xs =>
      refine ⟨'[', '\n'
          :: (String.intercalate "\n"
              (stringifyItems errors space p 0 (xs.length + 1) d (x :: xs))).data
          ++ '\n' :: (indentStr space d).data ++ [']'], ?_, by decide, by decide, by decide⟩
      show ("[\n" ++ _ ++ "\n" ++ indentStr space d ++ "]").data = _
      simp [String.data_append]
  | obj fields =>
    by_cases h : countPresent fields = 0
    · refine ⟨'{', ['}'], ?_, by decide, by decide, by decide⟩
      show (stringify errors space p (.obj fields) d).data = _
      rw [show stringify errors space p (.obj fields) d
          = if countPresent fields = 0 then "\x7b\x7d"
            else "\x7b\n"
              ++ String.intercalate "\n"
                  (stringifyEntries errors space p 0 (countPresent fields) d fields)
              ++ "\n" ++ indentStr space d ++ "\x7d" from rfl, if_pos h]
    · refine ⟨'{', '\n'
          :: (String.intercalate "\n"
              (stringifyEntries errors space p 0 (countPresent fields) d fields)).data
          ++ '\n' :: (indentStr space d).data ++ ['}'], ?_, by decide, by decide, by decide⟩
      show (stringify errors space p (.obj fields) d).data = _
      rw [show stringify errors space p (.obj fields) d
          = if countPresent fields = 0 then "\x7b\x7d"
            else "\x7b\n"
              ++ String.intercalate "\n"
                  (stringifyEntries errors space p 0 (countPresent fields) d fields)
              ++ "\n" ++ indentStr space d ++ "\x7d" from rfl, if_neg h]
      simp [String.data_append]

/-! ### The serialized text is at least as long as the size measure -/

mutual

theorem jsize_le (errors : List ErrorObject) (space : Nat) :
    ∀ (p : String) (v : Json) (d : Nat),
      jsize v ≤ (stringify errors space p v d).data.length
  | _, .null, _ => by
    show 1 ≤ ("null" : String).data.length
    decide
  | _, .bool true, _ => by
    show 1 ≤ ("true" : String).data.length
    decide
  | _, .bool false, _ => by
    show 1 ≤ ("false" : String).data.length
    decide
  | _, .num n, _ => by
    show 1 ≤ (intLit n).data.length
    by_cases h : n < 0
    · rw [intLit, if_pos h, String.data_append]
      simp
    · rw [intLit, if_neg h]
      obtain ⟨c, t, hct, _⟩ := natChars_cons n.natAbs
      show 1 ≤ (natChars n.natAbs).length
      rw [hct]
      simp
  | _, .str s, _ => by
    show 1 ≤ (quoteString s).data.length
    simp [quoteString, String.data_append]
  | _, .arr [], _ => by
    show 1 ≤ ("[]" : String).data.length
    decide
  | p, .arr (x :: xs), d => by
    have hlist := jsizeList_le errors space p 0 (xs.length + 1) d (x :: xs)
    show 1 + jsizeList (x :: xs)
        ≤ ("[\n" ++ _ ++ "\n" ++ indentStr space d ++ "]").data.length
    simp only [String.data_append, List.length_append, List.length_cons, List.length_nil]
    omega
  | p, .obj fields, d => by
    show 1 + jsizeFields fields ≤ (stringify errors space p (.obj fields) d).data.length
    rw [show stringify errors space p (.obj fields) d
        = if countPresent fields = 0 then "\x7b\x7d"
          else "\x7b\n"
            ++ String.intercalate "\n"
                (stringifyEntries errors space p 0 (countPresent fields) d fields)
            ++ "\n" ++ indentStr space d ++ "\x7d" from rfl]
    by_cases h : countPresent fields = 0
    · rw [if_pos h, jsizeFields_zero fields h]
      show 1 + 0 ≤ ("\x7b\x7d" : String).data.length
      decide
    · rw [if_neg h]
      have hlist := jsizeFields_le errors space p 0 (countPresent fields) d fields
      simp only [String.data_append, List.length_append, List.length_cons, List.length_nil]
      omega

theorem jsizeList_le (errors : List ErrorObject) (space : Nat) :
    ∀ (p : String) (i n d : Nat) (xs : List Json),
      jsizeList xs
        ≤ (String.intercalate "\n" (stringifyItems errors space p i n d xs)).data.length + 1
  | _, _, _, _, [] => Nat.zero_le _
  | p, i, n, d, [x] => by
    have hv := jsize_le errors space (p ++ "/" ++ natLit i) x (d + 1)
    rw [show stringifyItems errors space p i n d [x]
        = [indentStr space (d + 1)
            ++ stringify errors space (p ++ "/" ++ natLit i) x (d + 1)
            ++ (if i < n - 1 then "," else "")
            ++ annotationFor errors (p ++ "/" ++ natLit i)] from rfl,
      intercalate_single]
    simp only [String.data_append, List.length_append, List.length_cons, List.length_nil]
    show 1 + jsize x + 0 ≤ _
    omega
  | p, i, n, d, x :: y :: ys => by
    have hv := jsize_le errors space (p ++ "/" ++ natLit i) x (d + 1)
    have ih := jsizeList_le errors space p (i + 1) n d (y :: ys)
    rw [show stringifyItems errors space p i n d (x :: y :: ys)
        = (indentStr space (d + 1)
            ++ stringify errors space (p ++ "/" ++ natLit i) x (d + 1)
            ++ (if i < n - 1 then "," else "")
            ++ annotationFor errors (p ++ "/" ++ natLit i))
          :: stringifyItems errors space p (i + 1) n d (y :: ys) from rfl]
    obtain ⟨b, bs, hbs⟩ : ∃ b bs, stringifyItems errors space p (i + 1) n d (y :: ys)
        = b :: bs :=
      ⟨_, _, rfl⟩
    rw [hbs, intercalate_two, ← hbs]
    simp only [String.data_append, List.length_append, List.length_cons, List.length_nil]
    show 1 + jsize x + jsizeList (y :: ys) ≤ _
    omega

theorem jsizeFields_le (errors : List ErrorObject) (space : Nat) :
    ∀ (p : String) (i n d : Nat) (fields : List (String × Option Json)),
      jsizeFields fields
        ≤ (String.intercalate "\n" (stringifyEntries errors space p i n d fields)).data.length
            + 1
  | _, _, _, _, [] => Nat.zero_le _
  | p, i, n, d, (k, none) :: rest => by
    show jsizeFields rest
        ≤ (String.intercalate "\n" (stringifyEntries errors space p i n d rest)).data.length + 1
    exact jsizeFields_le errors space p i n d rest
  | p, i, n, d, (k, some v) :: rest => by
    have hv := jsize_le errors space (p ++ "/" ++ k) v (d + 1)
    rw [show stringifyEntries errors space p i n d ((k, some v) :: rest)
        = (indentStr space (d + 1)
            ++ quoteString k ++ ": "
            ++ stringify errors space (p ++ "/" ++ k) v (d + 1)
            ++ (if i < n - 1 then "," else "")
            ++ annotationFor errors (p ++ "/" ++ k))
          :: stringifyEntries errors space p (i + 1) n d rest from rfl]
    by_cases hr : countPresent rest = 0
    · have hz := jsizeFields_zero rest hr
      rw [stringifyEntries_eq_nil_of_zero errors space p rest (i + 1) n d hr,
        intercalate_single]
      simp only [String.data_append, List.length_append, List.length_cons, List.length_nil]
      show 1 + jsize v + jsizeFields rest ≤ _
      omega
    · have ih := jsizeFields_le errors space p (i + 1) n d rest
      obtain ⟨b, bs, hbs⟩ :
          ∃ b bs, stringifyEntries errors space p (i + 1) n d rest = b :: bs := by
        rcases he : stringifyEntries errors space p (i + 1) n d rest with _ | ⟨b, bs⟩
        · exact absurd he (stringifyEntries_ne_nil errors space p rest (i + 1) n d hr)
        · exact ⟨b, bs, rfl⟩
      rw [hbs, intercalate_two, ← hbs]
      simp only [String.data_append, List.length_append, List.length_cons, List.length_nil]
      show 1 + jsize v + jsizeFields rest ≤ _
      omega

end

/-! ### Shape of the rendered item and entry texts -/

theorem itemsText_decomp (space : Nat) (p : String) (i n d : Nat) (x : Json)
    (xs : List Json) (X : List Char) :
    ∃ z, (String.intercalate "\n" (stringifyItems [] space p i n d (x :: xs))).data ++ X
      = List.replicate (space * (d + 1)) ' '
          ++ ((stringify [] space (p ++ "/" ++ natLit i) x (d + 1)).data ++ z) := by
  rcases hxs : stringifyItems [] space p (i + 1) n d xs with _ | ⟨b, bs⟩
  · refine ⟨((if i < n - 1 then "," else "") : String).data ++ X, ?_⟩
    rw [show stringifyItems [] space p i n d (x :: xs)
        = (indentStr space (d + 1)
            ++ stringify [] space (p ++ "/" ++ natLit i) x (d + 1)
            ++ (if i < n - 1 then "," else "")
            ++ annotationFor [] (p ++ "/" ++ natLit i))
          :: stringifyItems [] space p (i + 1) n d xs from rfl,
      hxs, intercalate_single, annotationFor_nil]
    simp [String.data_append, indentStr]
  · refine ⟨((if i < n - 1 then "," else "") : String).data
        ++ '\n' :: (String.intercalate "\n" (b :: bs)).data ++ X, ?_⟩
    rw [show stringifyItems [] space p i n d (x :: xs)
        = (indentStr space (d + 1)
            ++ stringify [] space (p ++ "/" ++ natLit i) x (d + 1)
            ++ (if i < n - 1 then "," else "")
            ++ annotationFor [] (p ++ "/" ++ natLit i))
          :: stringifyItems [] space p (i + 1) n d xs from rfl,
      hxs, intercalate_two, annotationFor_nil]
    simp [String.data_append, indentStr]

theorem entriesText_head (space : Nat) :
    ∀ (fields : List (String × Option Json)) (p : String) (i n d : Nat) (X : List Char),
      countPresent fields ≠ 0 →
      ∃ z, (String.intercalate "\n" (stringifyEntries [] space p i n d fields)).data ++ X
        = List.replicate (space * (d + 1)) ' ' ++ '"' :: z
  | [], _, _, _, _, _, h => absurd rfl h
  | (k, none) :: rest, p, i, n, d, X, h => by
    have hr : countPresent rest ≠ 0 := by
      simpa [countPresent, List.countP_cons] using h
    simpa [stringifyEntries] using entriesText_head space rest p i n d X hr
  | (k, some v) :: rest, p, i, n, d, X, h => by
    rcases hre : stringifyEntries [] space p (i + 1) n d rest with _ | ⟨b, bs⟩
    · refine ⟨k.data.flatMap escapeChar ++ '"' :: ':' :: ' '
          :: ((stringify [] space (p ++ "/" ++ k) v (d + 1)).data
            ++ ((if i < n - 1 then "," else "") : String).data ++ X), ?_⟩
      rw [show stringifyEntries [] space p i n d ((k, some v) :: rest)
          = (indentStr space (d + 1)
              ++ quoteString k ++ ": "
              ++ stringify [] space (p ++ "/" ++ k) v (d + 1)
              ++ (if i < n - 1 then "," else "")
              ++ annotationFor [] (p ++ "/" ++ k))
            :: stringifyEntries [] space p (i + 1) n d rest from rfl,
        hre, intercalate_single, annotationFor_nil]
      simp [String.data_append, indentStr, quoteString]
    · refine ⟨k.data.flatMap escapeChar ++ '"' :: ':' :: ' '
          :: ((stringify [] space (p ++ "/" ++ k) v (d + 1)).data
            ++ ((if i < n - 1 then "," else "") : String).data
            ++ '\n' :: (String.intercalate "\n" (b :: bs)).data ++ X), ?_⟩
      rw [show stringifyEntries [] space p i n d ((k, some v) :: rest)
          = (indentStr space (d + 1)
              ++ quoteString k ++ ": "
              ++ stringify [] space (p ++ "/" ++ k) v (d + 1)
              ++ (if i < n - 1 then "," else "")
              ++ annotationFor [] (p ++ "/" ++ k))
            :: stringifyEntries [] space p (i + 1) n d rest from rfl,
        hre, intercalate_two, annotationFor_nil]
      simp [String.data_append, indentStr, quoteString]

/-! ### The round trip: parsing the serialized text recovers the value -/

mutual

theorem rt_val : ∀ (v : Json) (space : Nat) (p : String) (d : Nat) (f : Nat)
    (rest : List Char), jsize v ≤ f → numStop rest = true →
    parseVal f ((stringify [] space p v d).data ++ rest) = some (eraseAbsent v, rest)
  | .null, space, p, d, f, rest, hf, _ => by
    have h1 : 1 ≤ f := hf
    obtain ⟨f, rfl⟩ : ∃ g, f = g + 1 := ⟨f - 1, by omega⟩
    show parseVal (f + 1) ('n' :: 'u' :: 'l' :: 'l' :: rest) = some (Json.null, rest)
    simp only [parseVal]
    rw [dropWs_not_ws 'n' _ (by decide)]
    rfl
  | .bool true, space, p, d, f, rest, hf, _ => by
    have h1 : 1 ≤ f := hf
    obtain ⟨f, rfl⟩ : ∃ g, f = g + 1 := ⟨f - 1, by omega⟩
    show parseVal (f + 1) ('t' :: 'r' :: 'u' :: 'e' :: rest) = some (Json.bool true, rest)
    simp only [parseVal]
    rw [dropWs_not_ws 't' _ (by decide)]
    rfl
  | .bool false, space, p, d, f, rest, hf, _ => by
    have h1 : 1 ≤ f := hf
    obtain ⟨f, rfl⟩ : ∃ g, f = g + 1 := ⟨f - 1, by omega⟩
    show parseVal (f + 1) ('f' :: 'a' :: 'l' :: 's' :: 'e' :: rest)
      = some (Json.bool false, rest)
    simp only [parseVal]
    rw [dropWs_not_ws 'f' _ (by decide)]
    rfl
  | .num n, space, p, d, f, rest, hf, hr => by
    have h1 : 1 ≤ f := hf
    obtain ⟨f, rfl⟩ : ∃ g, f = g + 1 := ⟨f - 1, by omega⟩
    obtain ⟨c, t, hct, hc⟩ := natChars_cons n.natAbs
    have hgrab : grabDigits (natChars n.natAbs ++ rest) = (natChars n.natAbs, rest) :=
      grabDigits_run (natChars n.natAbs) (natChars_digits n.natAbs) rest hr
    show parseVal (f + 1) ((intLit n).data ++ rest) = some (Json.num n, rest)
    by_cases hneg : n < 0
    · rw [intLit, if_pos hneg, String.data_append]
      show parseVal (f + 1) ('-' :: (natChars n.natAbs ++ rest)) = some (Json.num n, rest)
      rw [parseVal_minus f _, hgrab, hct]
      show some (Json.num (-(digitsToNat (c :: t) : Int)), rest) = some (Json.num n, rest)
      rw [← hct, digitsToNat_natChars]
      have habs : ((n.natAbs : Int)) = -n := by omega
      rw [habs]
      simp
    · rw [intLit, if_neg hneg]
      show parseVal (f + 1) (natChars n.natAbs ++ rest) = some (Json.num n, rest)
      rw [hct, List.cons_append, parseVal_digit_head f c (t ++ rest) hc,
        ← List.cons_append, ← hct, hgrab]
      show some (Json.num ((digitsToNat (natChars n.natAbs) : Int)), rest)
        = some (Json.num n, rest)
      rw [digitsToNat_natChars]
      have habs : ((n.natAbs : Int)) = n := by omega
      rw [habs]
  | .str s, space, p, d, f, rest, hf, _ => by
    have h1 : 1 ≤ f := hf
    obtain ⟨f, rfl⟩ : ∃ g, f = g + 1 := ⟨f - 1, by omega⟩
    show parseVal (f + 1) ((quoteString s).data ++ rest) = some (Json.str s, rest)
    have hdata : (quoteString s).data ++ rest
        = '"' :: (s.data.flatMap escapeChar ++ '"' :: rest) := by
      simp [quoteString, String.data_append]
    rw [hdata, parseVal_quote f _, strBody_flatMap s.data rest]
  | .arr [], space, p, d, f, rest, hf, _ => by
    have h1 : 1 ≤ f := hf
    obtain ⟨f, rfl⟩ : ∃ g, f = g + 1 := ⟨f - 1, by omega⟩
    show parseVal (f + 1) ('[' :: ']' :: rest) = some (Json.arr [], rest)
    rw [parseVal_lbrack f _, dropWs_not_ws ']' _ (by decide)]
    rfl
  | .arr (x :: xs), space, p, d, f, rest, hf, _ => by
    have h1 : 1 + jsizeList (x :: xs) ≤ f := hf
    obtain ⟨f, rfl⟩ : ∃ g, f = g + 1 := ⟨f - 1, by omega⟩
    have hdata : (stringify [] space p (.arr (x :: xs)) d).data ++ rest
        = '[' :: '\n'
          :: ((String.intercalate "\n"
                (stringifyItems [] space p 0 (xs.length + 1) d (x :: xs))).data
            ++ ('\n' :: ((indentStr space d).data ++ (']' :: rest)))) := by
      show (("[\n"
          ++ String.intercalate "\n"
              (stringifyItems [] space p 0 (xs.length + 1) d (x :: xs))
          ++ "\n" ++ indentStr space d ++ "]")).data ++ rest = _
      simp [String.data_append]
    rw [hdata, parseVal_lbrack f _]
    obtain ⟨z, hz⟩ := itemsText_decomp space p 0 (xs.length + 1) d x xs
      ('\n' :: ((indentStr space d).data ++ (']' :: rest)))
    obtain ⟨c, t, hct, hcw, hcb, _⟩ := stringify_head [] space (p ++ "/" ++ natLit 0) x (d + 1)
    have hdw : dropWs ('\n'
        :: ((String.intercalate "\n"
              (stringifyItems [] space p 0 (xs.length + 1) d (x :: xs))).data
          ++ ('\n' :: ((indentStr space d).data ++ (']' :: rest))))) = c :: (t ++ z) := by
      rw [dropWs_cons_ws '\n' _ (by decide), hz, dropWs_spaces, hct, List.cons_append,
        dropWs_not_ws c _ hcw]
    rw [hdw]
    have hitems : parseItems f (c :: (t ++ z))
        = some (eraseAbsentList (x :: xs), rest) := by
      rw [← hdw, parseItems_dropWs, parseItems_cons_ws f '\n' (by decide)]
      exact rt_items x xs space p 0 (xs.length + 1) d f rest (by omega) (by omega)
    split
    · rename_i heq
      exact absurd (List.cons.inj heq).1 hcb
    · rw [hitems]
      rfl
  | .obj fields, space, p, d, f, rest, hf, _ => by
    have h1 : 1 + jsizeFields fields ≤ f := hf
    obtain ⟨f, rfl⟩ : ∃ g, f = g + 1 := ⟨f - 1, by omega⟩
    rw [show stringify [] space p (.obj fields) d
        = if countPresent fields = 0 then "\x7b\x7d"
          else "\x7b\n"
            ++ String.intercalate "\n"
                (stringifyEntries [] space p 0 (countPresent fields) d fields)
            ++ "\n" ++ indentStr space d ++ "\x7d" from rfl]
    by_cases h0 : countPresent fields = 0
    · rw [if_pos h0]
      show parseVal (f + 1) ('{' :: '}' :: rest) = some (eraseAbsent (Json.obj fields), rest)
      rw [parseVal_lbrace f _, dropWs_not_ws '}' _ (by decide)]
      show some (Json.obj [], rest) = _
      rw [show eraseAbsent (Json.obj fields) = Json.obj (eraseAbsentFields fields) from rfl,
        eraseAbsentFields_eq_nil fields h0]
    · rw [if_neg h0]
      have hdata : ("\x7b\n"
          ++ String.intercalate "\n"
              (stringifyEntries [] space p 0 (countPresent fields) d fields)
          ++ "\n" ++ indentStr space d ++ "\x7d").data ++ rest
          = '{' :: '\n'
            :: ((String.intercalate "\n"
                  (stringifyEntries [] space p 0 (countPresent fields) d fields)).data
              ++ ('\n' :: ((indentStr space d).data ++ ('}' :: rest)))) := by
        simp [String.data_append]
      rw [hdata, parseVal_lbrace f _]
      obtain ⟨z, hz⟩ := entriesText_head space fields p 0 (countPresent fields) d
        ('\n' :: ((indentStr space d).data ++ ('}' :: rest))) h0
      have hdw : dropWs ('\n'
          :: ((String.intercalate "\n"
                (stringifyEntries [] space p 0 (countPresent fields) d fields)).data
            ++ ('\n' :: ((indentStr space d).data ++ ('}' :: rest))))) = '"' :: z := by
        rw [dropWs_cons_ws '\n' _ (by decide), hz, dropWs_spaces,
          dropWs_not_ws '"' _ (by decide)]
      have hmem : parseMembers f ('"' :: z) = some (eraseAbsentFields fields, rest) := by
        rw [← hdw, parseMembers_dropWs, parseMembers_cons_ws f '\n' (by decide)]
        exact rt_members fields space p 0 (countPresent fields) d f rest
          (by omega) h0 (by omega)
      rw [hdw]
      show (match parseMembers f ('"' :: z) with
        | some (flds, r) => some (Json.obj flds, r)
        | none => none) = some (eraseAbsent (Json.obj fields), rest)
      rw [hmem]
      rfl
termination_by _ _ _ _ f _ _ _ => (f, 0)

theorem rt_items : ∀ (x : Json) (xs : List Json) (space : Nat) (p : String)
    (i n d : Nat) (f : Nat) (rest : List Char),
    jsizeList (x :: xs) ≤ f → n = i + xs.length + 1 →
    parseItems f
      ((String.intercalate "\n" (stringifyItems [] space p i n d (x :: xs))).data
        ++ ('\n' :: ((indentStr space d).data ++ (']' :: rest))))
      = some (eraseAbsentList (x :: xs), rest)
  | x, [], space, p, i, n, d, f, rest, hf, hn => by
    have h1 : 1 + jsize x + 0 ≤ f := hf
    have hn0 : n = i + 1 := by simpa using hn
    obtain ⟨f, rfl⟩ : ∃ g, f = g + 1 := ⟨f - 1, by omega⟩
    have hin : (String.intercalate "\n" (stringifyItems [] space p i n d [x])).data
        ++ ('\n' :: ((indentStr space d).data ++ (']' :: rest)))
        = List.replicate (space * (d + 1)) ' '
          ++ ((stringify [] space (p ++ "/" ++ natLit i) x (d + 1)).data
            ++ ('\n' :: ((indentStr space d).data ++ (']' :: rest)))) := by
      rw [show stringifyItems [] space p i n d [x]
          = [indentStr space (d + 1)
              ++ stringify [] space (p ++ "/" ++ natLit i) x (d + 1)
              ++ (if i < n - 1 then "," else "")
              ++ annotationFor [] (p ++ "/" ++ natLit i)] from rfl,
        intercalate_single, annotationFor_nil, if_neg (by omega : ¬ i < n - 1)]
      simp [String.data_append, indentStr]
    have hv := rt_val x space (p ++ "/" ++ natLit i) (d + 1) f
      ('\n' :: ((indentStr space d).data ++ (']' :: rest))) (by omega) rfl
    have hdw : dropWs ('\n' :: ((indentStr space d).data ++ (']' :: rest)))
        = ']' :: rest := by
      rw [dropWs_cons_ws '\n' _ (by decide), dropWs_indent,
        dropWs_not_ws ']' _ (by decide)]
    simp only [parseItems]
    rw [hin, parseVal_spaces f _ _]
    simp only [hv, hdw]
    rfl
  | x, y :: ys, space, p, i, n, d, f, rest, hf, hn => by
    have h1 : 1 + jsize x + jsizeList (y :: ys) ≤ f := hf
    obtain ⟨f, rfl⟩ : ∃ g, f = g + 1 := ⟨f - 1, by omega⟩
    obtain ⟨b, bs, hbs⟩ : ∃ b bs, stringifyItems [] space p (i + 1) n d (y :: ys)
        = b :: bs := ⟨_, _, rfl⟩
    have hin : (String.intercalate "\n"
          (stringifyItems [] space p i n d (x :: y :: ys))).data
        ++ ('\n' :: ((indentStr space d).data ++ (']' :: rest)))
        = List.replicate (space * (d + 1)) ' '
          ++ ((stringify [] space (p ++ "/" ++ natLit i) x (d + 1)).data
            ++ (',' :: '\n'
              :: ((String.intercalate "\n"
                    (stringifyItems [] space p (i + 1) n d (y :: ys))).data
                ++ ('\n' :: ((indentStr space d).data ++ (']' :: rest)))))) := by
      rw [show stringifyItems [] space p i n d (x :: y :: ys)
          = (indentStr space (d + 1)
              ++ stringify [] space (p ++ "/" ++ natLit i) x (d + 1)
              ++ (if i < n - 1 then "," else "")
              ++ annotationFor [] (p ++ "/" ++ natLit i))
            :: stringifyItems [] space p (i + 1) n d (y :: ys) from rfl,
        hbs, intercalate_two, ← hbs, annotationFor_nil,
        if_pos (by simp at hn; omega : i < n - 1)]
      simp [String.data_append, indentStr]
    have hv := rt_val x space (p ++ "/" ++ natLit i) (d + 1) f
      (',' :: '\n'
        :: ((String.intercalate "\n"
              (stringifyItems [] space p (i + 1) n d (y :: ys))).data
          ++ ('\n' :: ((indentStr space d).data ++ (']' :: rest))))) (by omega) rfl
    have hdw : dropWs (',' :: '\n'
        :: ((String.intercalate "\n"
              (stringifyItems [] space p (i + 1) n d (y :: ys))).data
          ++ ('\n' :: ((indentStr space d).data ++ (']' :: rest)))))
        = ',' :: '\n'
          :: ((String.intercalate "\n"
                (stringifyItems [] space p (i + 1) n d (y :: ys))).data
            ++ ('\n' :: ((indentStr space d).data ++ (']' :: rest)))) :=
      dropWs_not_ws ',' _ (by decide)
    have hrec : parseItems f ('\n'
        :: ((String.intercalate "\n"
              (stringifyItems [] space p (i + 1) n d (y :: ys))).data
          ++ ('\n' :: ((indentStr space d).data ++ (']' :: rest)))))
        = some (eraseAbsentList (y :: ys), rest) := by
      rw [parseItems_cons_ws f '\n' (by decide)]
      exact rt_items y ys space p (i + 1) n d f rest (by omega)
        (by simp at hn ⊢; omega)
    simp only [parseItems]
    rw [hin, parseVal_spaces f _ _]
    simp only [hv, hdw, hrec]
    rfl
termination_by _ _ _ _ _ _ _ f _ _ _ => (f, 0)

theorem rt_members : ∀ (fields : List (String × Option Json)) (space : Nat) (p : String)
    (i n d : Nat) (f : Nat) (rest : List Char),
    jsizeFields fields ≤ f → countPresent fields ≠ 0 → n = i + countPresent fields →
    parseMembers f
      ((String.intercalate "\n" (stringifyEntries [] space p i n d fields)).data
        ++ ('\n' :: ((indentStr space d).data ++ ('}' :: rest))))
      = some (eraseAbsentFields fields, rest)
  | [], _, _, _, _, _, _, _, _, h0, _ => absurd rfl h0
  | (k, none) :: fields, space, p, i, n, d, f, rest, hf, h0, hn => by
    have hr : countPresent fields ≠ 0 := by
      simpa [countPresent, List.countP_cons] using h0
    have hn' : n = i + countPresent fields := by
      simp [countPresent, List.countP_cons] at hn ⊢
      omega
    show parseMembers f
        ((String.intercalate "\n" (stringifyEntries [] space p i n d fields)).data
          ++ ('\n' :: ((indentStr space d).data ++ ('}' :: rest))))
        = some (eraseAbsentFields fields, rest)
    exact rt_members fields space p i n d f rest hf hr hn'
  | (k, some v) :: fields, space, p, i, n, d, f, rest, hf, h0, hn => by
    have h1 : 1 + jsize v + jsizeFields fields ≤ f := hf
    obtain ⟨f, rfl⟩ : ∃ g, f = g + 1 := ⟨f - 1, by omega⟩
    have hcp : countPresent ((k, some v) :: fields) = countPresent fields + 1 := by
      simp [countPresent, List.countP_cons]
    by_cases hz : countPresent fields = 0
    · have hin : (String.intercalate "\n"
            (stringifyEntries [] space p i n d ((k, some v) :: fields))).data
          ++ ('\n' :: ((indentStr space d).data ++ ('}' :: rest)))
          = List.replicate (space * (d + 1)) ' '
            ++ ('"' :: (k.data.flatMap escapeChar
              ++ ('"' :: ':' :: ' '
                :: ((stringify [] space (p ++ "/" ++ k) v (d + 1)).data
                  ++ ('\n' :: ((indentStr space d).data ++ ('}' :: rest))))))) := by
        rw [show stringifyEntries [] space p i n d ((k, some v) :: fields)
            = (indentStr space (d + 1)
                ++ quoteString k ++ ": "
                ++ stringify [] space (p ++ "/" ++ k) v (d + 1)
                ++ (if i < n - 1 then "," else "")
                ++ annotationFor [] (p ++ "/" ++ k))
              :: stringifyEntries [] space p (i + 1) n d fields from rfl,
          stringifyEntries_eq_nil_of_zero [] space p fields (i + 1) n d hz,
          intercalate_single, annotationFor_nil,
          if_neg (by rw [hcp, hz] at hn; omega : ¬ i < n - 1)]
        simp [String.data_append, indentStr, quoteString]
      have hdw1 : dropWs (List.replicate (space * (d + 1)) ' '
          ++ ('"' :: (k.data.flatMap escapeChar
            ++ ('"' :: ':' :: ' '
              :: ((stringify [] space (p ++ "/" ++ k) v (d + 1)).data
                ++ ('\n' :: ((indentStr space d).data ++ ('}' :: rest))))))))
          = '"' :: (k.data.flatMap escapeChar
            ++ ('"' :: ':' :: ' '
              :: ((stringify [] space (p ++ "/" ++ k) v (d + 1)).data
                ++ ('\n' :: ((indentStr space d).data ++ ('}' :: rest)))))) := by
        rw [dropWs_spaces, dropWs_not_ws '"' _ (by decide)]
      have hkey := strBody_flatMap k.data (':' :: ' '
        :: ((stringify [] space (p ++ "/" ++ k) v (d + 1)).data
          ++ ('\n' :: ((indentStr space d).data ++ ('}' :: rest)))))
      have hdw2 : dropWs (':' :: ' '
          :: ((stringify [] space (p ++ "/" ++ k) v (d + 1)).data
            ++ ('\n' :: ((indentStr space d).data ++ ('}' :: rest)))))
          = ':' :: ' '
            :: ((stringify [] space (p ++ "/" ++ k) v (d + 1)).data
              ++ ('\n' :: ((indentStr space d).data ++ ('}' :: rest)))) :=
        dropWs_not_ws ':' _ (by decide)
      have hsp := parseVal_cons_ws f ' ' (by decide)
        ((stringify [] space (p ++ "/" ++ k) v (d + 1)).data
          ++ ('\n' :: ((indentStr space d).data ++ ('}' :: rest))))
      have hv := rt_val v space (p ++ "/" ++ k) (d + 1) f
        ('\n' :: ((indentStr space d).data ++ ('}' :: rest))) (by omega) rfl
      have hdw3 : dropWs ('\n' :: ((indentStr space d).data ++ ('}' :: rest)))
          = '}' :: rest := by
        rw [dropWs_cons_ws '\n' _ (by decide), dropWs_indent,
          dropWs_not_ws '}' _ (by decide)]
      simp only [parseMembers]
      rw [hin]
      simp only [hdw1, hkey, hdw2, hsp, hv, hdw3]
      show some ([(String.mk k.data, some (eraseAbsent v))], rest) = _
      rw [show eraseAbsentFields ((k, some v) :: fields)
          = (k, some (eraseAbsent v)) :: eraseAbsentFields fields from rfl,
        eraseAbsentFields_eq_nil fields hz]
    · obtain ⟨b, bs, hbs⟩ :
          ∃ b bs, stringifyEntries [] space p (i + 1) n d fields = b :: bs := by
        rcases he : stringifyEntries [] space p (i + 1) n d fields with _ | ⟨b, bs⟩
        · exact absurd he (stringifyEntries_ne_nil [] space p fields (i + 1) n d hz)
        · exact ⟨b, bs, rfl⟩
      have hin : (String.intercalate "\n"
            (stringifyEntries [] space p i n d ((k, some v) :: fields))).data
          ++ ('\n' :: ((indentStr space d).data ++ ('}' :: rest)))
          = List.replicate (space * (d + 1)) ' '
            ++ ('"' :: (k.data.flatMap escapeChar
              ++ ('"' :: ':' :: ' '
                :: ((stringify [] space (p ++ "/" ++ k) v (d + 1)).data
                  ++ (',' :: '\n'
                    :: ((String.intercalate "\n"
                          (stringifyEntries [] space p (i + 1) n d fields)).data
                      ++ ('\n' :: ((indentStr space d).data ++ ('}' :: rest))))))))) := by
        rw [show stringifyEntries [] space p i n d ((k, some v) :: fields)
            = (indentStr space (d + 1)
                ++ quoteString k ++ ": "
                ++ stringify [] space (p ++ "/" ++ k) v (d + 1)
                ++ (if i < n - 1 then "," else "")
                ++ annotationFor [] (p ++ "/" ++ k))
              :: stringifyEntries [] space p (i + 1) n d fields from rfl,
          hbs, intercalate_two, ← hbs, annotationFor_nil,
          if_pos (by rw [hcp] at hn; omega : i < n - 1)]
        simp [String.data_append, indentStr, quoteString]
      have hdw1 : dropWs (List.replicate (space * (d + 1)) ' '
          ++ ('"' :: (k.data.flatMap escapeChar
            ++ ('"' :: ':' :: ' '
              :: ((stringify [] space (p ++ "/" ++ k) v (d + 1)).data
                ++ (',' :: '\n'
                  :: ((String.intercalate "\n"
                        (stringifyEntries [] space p (i + 1) n d fields)).data
                    ++ ('\n' :: ((indentStr space d).data ++ ('}' :: rest))))))))))
          = '"' :: (k.data.flatMap escapeChar
            ++ ('"' :: ':' :: ' '
              :: ((stringify [] space (p ++ "/" ++ k) v (d + 1)).data
                ++ (',' :: '\n'
                  :: ((String.intercalate "\n"
                        (stringifyEntries [] space p (i + 1) n d fields)).data
                    ++ ('\n' :: ((indentStr space d).data ++ ('}' :: rest)))))))) := by
        rw [dropWs_spaces, dropWs_not_ws '"' _ (by decide)]
      have hkey := strBody_flatMap k.data (':' :: ' '
        :: ((stringify [] space (p ++ "/" ++ k) v (d + 1)).data
          ++ (',' :: '\n'
            :: ((String.intercalate "\n"
                  (stringifyEntries [] space p (i + 1) n d fields)).data
              ++ ('\n' :: ((indentStr space d).data ++ ('}' :: rest)))))))
      have hdw2 : dropWs (':' :: ' '
          :: ((stringify [] space (p ++ "/" ++ k) v (d + 1)).data
            ++ (',' :: '\n'
              :: ((String.intercalate "\n"
                    (stringifyEntries [] space p (i + 1) n d fields)).data
                ++ ('\n' :: ((indentStr space d).data ++ ('}' :: rest)))))))
          = ':' :: ' '
            :: ((stringify [] space (p ++ "/" ++ k) v (d + 1)).data
              ++ (',' :: '\n'
                :: ((String.intercalate "\n"
                      (stringifyEntries [] space p (i + 1) n d fields)).data
                  ++ ('\n' :: ((indentStr space d).data ++ ('}' :: rest)))))) :=
        dropWs_not_ws ':' _ (by decide)
      have hsp := parseVal_cons_ws f ' ' (by decide)
        ((stringify [] space (p ++ "/" ++ k) v (d + 1)).data
          ++ (',' :: '\n'
            :: ((String.intercalate "\n"
                  (stringifyEntries [] space p (i + 1) n d fields)).data
              ++ ('\n' :: ((indentStr space d).data ++ ('}' :: rest))))))
      have hv := rt_val v space (p ++ "/" ++ k) (d + 1) f
        (',' :: '\n'
          :: ((String.intercalate "\n"
                (stringifyEntries [] space p (i + 1) n d fields)).data
            ++ ('\n' :: ((indentStr space d).data ++ ('}' :: rest))))) (by omega) rfl
      have hdw3 : dropWs (',' :: '\n'
          :: ((String.intercalate "\n"
                (stringifyEntries [] space p (i + 1) n d fields)).data
            ++ ('\n' :: ((indentStr space d).data ++ ('}' :: rest)))))
          = ',' :: '\n'
            :: ((String.intercalate "\n"
                  (stringifyEntries [] space p (i + 1) n d fields)).data
              ++ ('\n' :: ((indentStr space d).data ++ ('}' :: rest)))) :=
        dropWs_not_ws ',' _ (by decide)
      have hrec : parseMembers f ('\n'
          :: ((String.intercalate "\n"
                (stringifyEntries [] space p (i + 1) n d fields)).data
            ++ ('\n' :: ((indentStr space d).data ++ ('}' :: rest)))))
          = some (eraseAbsentFields fields, rest) := by
        rw [parseMembers_cons_ws f '\n' (by decide)]
        exact rt_members fields space p (i + 1) n d f rest (by omega) hz
          (by rw [hcp] at hn; omega)
      simp only [parseMembers]
      rw [hin]
      simp only [hdw1, hkey, hdw2, hsp, hv, hdw3, hrec]
      rfl
termination_by fields _ _ _ _ _ f _ _ _ _ => (f, fields.length)

end

/-! ## A reference model with object identity, for the cyclic case

JavaScript values have object identity: a container can contain itself.
`RefVal` keeps leaves inline and containers as references into a `Heap`,
and `strfy` transcribes the source's inner `stringify` over that
representation: the `seen` WeakSet holds object ids and its `add` is never
undone; the `Array.isArray` branch performs no `seen` bookkeeping at all,
exactly as in the source. `fuel` bounds the recursion depth: a result of
`.fuelOut` at every fuel models unbounded recursion. -/

/-- A JSON-like runtime value with object identity. -/
inductive RefVal
  | null
  | bool (b : Bool)
  | num (n : Int)
  | str (s : String)
  | arrRef (id : Nat)
  | objRef (id : Nat)
deriving DecidableEq, Repr

/-- The heap: array `id` holds `arrays[id]`, object `id` holds `objects[id]`. -/
structure Heap where
  arrays : List (List RefVal)
  objects : List (List (String × Option RefVal))

/-- Outcome of serializing one value: a rendered string, the
`TypeError: Converting circular structure to JSON` throw, or fuel
exhaustion. -/
inductive StrOut
  | ok (s : String)
  | circular
  | fuelOut
deriving DecidableEq, Repr

/-- Outcome of a `map` loop over the children of a container. -/
inductive StrsOut
  | ok (lines : List String)
  | circular
  | fuelOut
deriving DecidableEq, Repr

mutual

/-- The inner `stringify(parent, value, depth)` of the source over heap
values, threading the `seen` set of object ids. -/
def strfy (h : Heap) (errors : List ErrorObject) (space : Nat) :
    Nat → List Nat → String → RefVal → Nat → StrOut × List Nat
  | 0, seen, _, _, _ => (.fuelOut, seen)
  | _ + 1, seen, _, .null, _ => (.ok "null", seen)
  | _ + 1, seen, _, .bool true, _ => (.ok "true", seen)
  | _ + 1, seen, _, .bool false, _ => (.ok "false", seen)
  | _ + 1, seen, _, .num n, _ => (.ok (intLit n), seen)
  | _ + 1, seen, _, .str s, _ => (.ok (quoteString s), seen)
  | fuel + 1, seen, parent, .arrRef id, depth =>
    if (h.arrays.getD id []).length = 0 then (.ok "[]", seen)
    else
      match strfyItems h errors space fuel seen parent 0
          (h.arrays.getD id []).length depth (h.arrays.getD id []) with
      | (.ok lines, seen') =>
        (.ok ("[\n" ++ String.intercalate "\n" lines
          ++ "\n" ++ indentStr space depth ++ "]"), seen')
      | (.circular, seen') => (.circular, seen')
      | (.fuelOut, seen') => (.fuelOut, seen')
  | fuel + 1, seen, parent, .objRef id, depth =>
    if id ∈ seen then (.circular, seen)
    else
      if ((h.objects.getD id []).filter (fun kv => kv.2.isSome)).length = 0 then
        (.ok "\x7b\x7d", id :: seen)
      else
        match strfyEntries h errors space fuel (id :: seen) parent 0
            ((h.objects.getD id []).filter (fun kv => kv.2.isSome)).length depth
            ((h.objects.getD id []).filter (fun kv => kv.2.isSome)) with
        | (.ok lines, seen') =>
          (.ok ("\x7b\n" ++ String.intercalate "\n" lines
            ++ "\n" ++ indentStr space depth ++ "\x7d"), seen')
        | (.circular, seen') => (.circular, seen')
        | (.fuelOut, seen') => (.fuelOut, seen')
termination_by fuel _ _ _ _ => (fuel, 0)

/-- The `value.map((v, i) => ...)` loop over array elements. -/
def strfyItems (h : Heap) (errors : List ErrorObject) (space : Nat) :
    Nat → List Nat → String → Nat → Nat → Nat → List RefVal → StrsOut × List Nat
  | _, seen, _, _, _, _, [] => (.ok [], seen)
  | fuel, seen, parent, i, n, depth, x :: xs =>
    match strfy h errors space fuel seen (parent ++ "/" ++ natLit i) x (depth + 1) with
    | (.ok json, seen') =>
      match strfyItems h errors space fuel seen' parent (i + 1) n depth xs with
      | (.ok lines, seen'') =>
        (.ok ((indentStr space (depth + 1) ++ json
            ++ (if i < n - 1 then "," else "")
            ++ annotationFor errors (parent ++ "/" ++ natLit i)) :: lines), seen'')
      | (.circular, seen'') => (.circular, seen'')
      | (.fuelOut, seen'') => (.fuelOut, seen'')
    | (.circular, seen') => (.circular, seen')
    | (.fuelOut, seen') => (.fuelOut, seen')
termination_by fuel _ _ _ _ _ xs => (fuel, xs.length + 1)

/-- The `keys.map((k, i) => ...)` loop over present mapping entries. -/
def strfyEntries (h : Heap) (errors : List ErrorObject) (space : Nat) :
    Nat → List Nat → String → Nat → Nat → Nat → List (String × Option RefVal)
      → StrsOut × List Nat
  | _, seen, _, _, _, _, [] => (.ok [], seen)
  | fuel, seen, parent, i, n, depth, (_, none) :: rest =>
    strfyEntries h errors space fuel seen parent i n depth rest
  | fuel, seen, parent, i, n, depth, (k, some v) :: rest =>
    match strfy h errors space fuel seen (parent ++ "/" ++ k) v (depth + 1) with
    | (.ok json, seen') =>
      match strfyEntries h errors space fuel seen' parent (i + 1) n depth rest with
      | (.ok lines, seen'') =>
        (.ok ((indentStr space (depth + 1) ++ quoteString k ++ ": " ++ json
            ++ (if i < n - 1 then "," else "")
            ++ annotationFor errors (parent ++ "/" ++ k)) :: lines), seen'')
      | (.circular, seen'') => (.circular, seen'')
      | (.fuelOut, seen'') => (.fuelOut, seen'')
    | (.circular, seen') => (.circular, seen')
    | (.fuelOut, seen') => (.fuelOut, seen')
termination_by fuel _ _ _ _ _ fs => (fuel, fs.length + 1)

end

/-- The heap of `const a = []; a[0] = a;`: one array containing itself. -/
def selfArray : Heap := ⟨[[RefVal.arrRef 0]], []⟩

/-- The heap of `const o = {}; o.self = o;`: one object containing itself. -/
def selfObject : Heap := ⟨[], [[("self", some (RefVal.objRef 0))]]⟩

/-- On the object self-cycle the serializer does throw the circular-structure
error, after two levels of recursion. -/
theorem strfy_object_cycle_circular (errors : List ErrorObject) (space : Nat)
    (f : Nat) :
    (strfy selfObject errors space (f + 2) [] "" (.objRef 0) 0).1 = .circular := by
  simp [strfy, strfyEntries, selfObject]

/-- C4: the claim requires every input in which a container contains itself to
fail with a circular-structure error rather than loop indefinitely, but the
source's `Array.isArray` branch performs no `seen` check at all: on
`const a = []; a[0] = a;` (the `selfArray` heap) the serializer recurses
without bound — for every fuel allowance, every seen set, every path and
every depth, the model exhausts its fuel instead of either returning output
or signalling the circular-structure error, while `strfy_object_cycle_circular`
shows the object branch does signal it. -/
theorem claim4_array_cycle_unbounded (errors : List ErrorObject) (space : Nat) :
    ∀ (f : Nat) (seen : List Nat) (p : String) (d : Nat),
      (strfy selfArray errors space f seen p (.arrRef 0) d).1 = .fuelOut
  | 0, seen, p, d => by
    simp [strfy]
  | f + 1, seen, p, d => by
    have ih := claim4_array_cycle_unbounded errors space f seen
      (p ++ "/" ++ natLit 0) (d + 1)
    rcases he : strfy selfArray errors space f seen (p ++ "/" ++ natLit 0)
      (.arrRef 0) (d + 1) with ⟨o, s'⟩
    rw [he] at ih
    simp only at ih
    subst ih
    simp only [selfArray] at he
    simp [strfy, strfyItems, selfArray, he]

/-- C3: for every (acyclic) JsonValue tree and an empty error list, parsing the
output of `myStringifyWithErrors` with a standard JSON parser yields a value
deep-equal to the input modulo mapping entries whose value is explicitly
absent, which do not appear in the output: the parse succeeds and returns
exactly `eraseAbsent` of the input, for every indentation width. -/
theorem claim3_roundtrip (v : Json) (space : Nat) :
    parseJson (myStringifyWithErrors v [] space) = some (eraseAbsent v) := by
  have hb := jsize_le [] space "" v 0
  have hf : jsize v ≤ (stringify [] space "" v 0).data.length + 1 := by omega
  have h := rt_val v space "" 0 ((stringify [] space "" v 0).data.length + 1) [] hf rfl
  rw [List.append_nil] at h
  show (match parseVal ((stringify [] space "" v 0).data.length + 1)
      (stringify [] space "" v 0).data with
    | some (w, rest) => if dropWs rest = [] then some w else none
    | none => none) = some (eraseAbsent v)
  rw [h]
  rfl

end Consfyi
